import Mathlib

/-
Verification of the aho_corasick single-header library
(src/src/aho_corasick/aho_corasick.hpp) against its specification.

Shallow embedding conventions:
  - CharType is modelled as Char, strings as List Char.
  - size_t values are modelled as Nat.  Where the source relies on
    unsigned wraparound the embedding either inserts an explicit
    % 2 ^ 64 (determine_median) or is accompanied by a comment proving
    the rewritten form coincides with the size_t computation on every
    reachable input.
  - Pointer-based mutable state objects are replaced by explicit state
    passing: a trie state is identified by its path from the root
    (the trie is a tree, so paths are unique), and the mutable per-state
    fields live in total functions from paths inside a trie_state record.
  - Unbounded loops (BFS queues, failure-chain walks, the interval-tree
    construction recursion) receive explicit fuel and return Option;
    none models non-termination or undefined behaviour (null dereference,
    out-of-range iterator).
-/

namespace aho_corasick

/-- Sentinel value numeric_limits of size_t, interval::max_pos in the source. -/
def max_pos : Nat := 2 ^ 64 - 1

/-- Embedding of class emit (which is-an interval): a closed interval
[start, stop] plus the matched keyword and its index.  The d_end field is
renamed stop because end is a Lean keyword.  Plain intervals are embedded
as emits with an empty keyword, matching the instantiation
interval_tree of emit used by the source. -/
structure emit where
  start : Nat
  stop : Nat
  keyword : List Char
  index : Nat
deriving DecidableEq, Repr

/-- Embedding of interval::size, end - start + 1. -/
def emit.size (e : emit) : Nat := e.stop - e.start + 1

/-- Embedding of interval::overlaps_with(other). -/
def emit.overlaps_with (a b : emit) : Prop := a.start ≤ b.stop ∧ a.stop ≥ b.start

instance (a b : emit) : Decidable (a.overlaps_with b) := by
  unfold emit.overlaps_with; infer_instance

/-- Embedding of interval::operator== (compares the interval part only;
this is the equality the source uses in std::find and in
add_to_overlaps, emits being sliced to intervals). -/
def interval_eq (a b : emit) : Bool := a.start == b.start && a.stop == b.stop

/-- Embedding of interval::operator< (compares start positions only; this
is the ordering of std::set of emit in remove_overlaps). -/
def interval_lt (a b : emit) : Bool := decide (a.start < b.start)

/-- Stable insertion into a list sorted by le. -/
def insert_sorted {α : Type} (le : α → α → Bool) (x : α) : List α → List α
  | [] => [x]
  | y :: ys => if le x y then x :: y :: ys else y :: insert_sorted le x ys

/-- Stable insertion sort.  std::sort takes a strict comparator lt and
leaves the order of equivalent elements unspecified; the embedding
deterministically models it by a stable sort with le a b := not (lt b a),
one of the permitted outcomes. -/
def sort_by {α : Type} (le : α → α → Bool) : List α → List α
  | [] => []
  | x :: xs => insert_sorted le x (sort_by le xs)

/-- Stable model of std::sort with strict comparator lt. -/
def sort_with_lt {α : Type} (lt : α → α → Bool) (l : List α) : List α :=
  sort_by (fun a b => !(lt b a)) l

/-- Comparator of the first sort in interval_tree::remove_overlaps.
The source tests b.size() - a.size() == 0, which in size_t arithmetic
holds exactly when the sizes are equal, then a.get_start() > b.get_start();
otherwise a.size() > b.size(). -/
def cmp_size_desc (a b : emit) : Bool :=
  if b.size == a.size then decide (b.start < a.start) else decide (b.size < a.size)

/-- Embedding of std::set of emit find: membership up to comparator
equivalence, i.e. equality of start positions under interval_lt. -/
def set_find (s : List emit) (x : emit) : Bool :=
  s.any (fun y => !(interval_lt x y) && !(interval_lt y x))

/-- Embedding of std::set of emit insert: a no-op when an equivalent
element (same start) is already present, otherwise ordered insertion. -/
def set_insert (s : List emit) (x : emit) : List emit :=
  if set_find s x then s else insert_sorted (fun a b => interval_lt a b) x s

/-- Embedding of interval_tree::node as an inductive tree; nil stands for
an absent (null) child pointer. -/
inductive itree where
  | nil : itree
  | node (point : Nat) (left right : itree) (ivs : List emit) : itree

/-- Fold of the start component of determine_median: start is seeded with
max_pos and replaced whenever it still equals max_pos or a smaller
cur_start appears. -/
def det_start_aux : Nat → List emit → Nat
  | acc, [] => acc
  | acc, i :: is => det_start_aux (if acc == max_pos || decide (i.start < acc) then i.start else acc) is

/-- Fold of the end component of determine_median. -/
def det_end_aux : Nat → List emit → Nat
  | acc, [] => acc
  | acc, i :: is => det_end_aux (if acc == max_pos || decide (i.stop > acc) then i.stop else acc) is

/-- Embedding of node::determine_median; (start + end) / 2 is computed in
size_t, hence the explicit % 2 ^ 64 on the sum. -/
def determine_median (l : List emit) : Nat :=
  ((det_start_aux max_pos l + det_end_aux max_pos l) % 2 ^ 64) / 2

/-- Embedding of the node constructor: partition by the if / else-if /
else chain on the median point and recurse on the nonempty parts.  The
recursion of the source terminates only because each part is strictly
smaller, which holds for sane inputs; the fuel makes this explicit. -/
def build_node : Nat → List emit → Option itree
  | 0, _ => none
  | fuel + 1, l =>
    let point := determine_median l
    let to_left := l.filter (fun i => decide (i.stop < point))
    let to_right := l.filter (fun i => !(decide (i.stop < point)) && decide (point < i.start))
    let mids := l.filter (fun i => !(decide (i.stop < point)) && !(decide (point < i.start)))
    match (if to_left.isEmpty then some itree.nil else build_node fuel to_left),
          (if to_right.isEmpty then some itree.nil else build_node fuel to_right) with
    | some lt', some rt' => some (itree.node point lt' rt' mids)
    | _, _ => none

/-- Embedding of node::add_to_overlaps: append the new overlaps that
differ (as intervals) from the query. -/
def add_to_overlaps (i : emit) (ovs new_ovs : List emit) : List emit :=
  ovs ++ new_ovs.filter (fun cur => !(interval_eq cur i))

/-- Embedding of node::check_overlaps with direction LEFT. -/
def check_overlaps_left (ivs : List emit) (i : emit) : List emit :=
  ivs.filter (fun cur => decide (cur.start ≤ i.stop))

/-- Embedding of node::check_overlaps with direction RIGHT. -/
def check_overlaps_right (ivs : List emit) (i : emit) : List emit :=
  ivs.filter (fun cur => decide (cur.stop ≥ i.start))

/-- Embedding of node::find_overlaps; find_overlapping_ranges on a null
child is the nil case. -/
def find_overlaps : itree → emit → List emit
  | .nil, _ => []
  | .node pt lft rgt ivs, i =>
    if decide (pt < i.start) then
      add_to_overlaps i (add_to_overlaps i [] (find_overlaps rgt i)) (check_overlaps_right ivs i)
    else if decide (pt > i.stop) then
      add_to_overlaps i (add_to_overlaps i [] (find_overlaps lft i)) (check_overlaps_left ivs i)
    else
      add_to_overlaps i
        (add_to_overlaps i (add_to_overlaps i [] ivs) (find_overlaps lft i))
        (find_overlaps rgt i)

/-- Greedy marking walk of interval_tree::remove_overlaps: skip intervals
already found in the std::set remove_tmp (comparing starts only), insert
the overlaps of the others. -/
def mark_loop (t : itree) : List emit → List emit → List emit
  | [], m => m
  | i :: is, m =>
    if set_find m i then mark_loop t is m
    else mark_loop t is ((find_overlaps t i).foldl set_insert m)

/-- Embedding of result.erase(std::find(result.begin(), result.end(), i)):
removes the first element equal as an interval. -/
def erase_first_iv (x : emit) : List emit → List emit
  | [] => []
  | y :: ys => if interval_eq y x then ys else y :: erase_first_iv x ys

/-- Embedding of interval_tree::remove_overlaps over a tree already built
from the interval collection.  remove_tmp iteration order (ascending
start) does not matter for the erase fold, but the fold is kept. -/
def remove_overlaps (t : itree) (intervals : List emit) : List emit :=
  let result := sort_with_lt cmp_size_desc intervals
  let marked := mark_loop t result []
  let result2 := marked.foldl (fun r i => erase_first_iv i r) result
  sort_with_lt interval_lt result2

/-- Overlap removal exactly as parse_text_fixed uses it: a tree is built over
the collection and remove_overlaps is called on the same collection.
Fuel length + 1 suffices for every sane input (build_node_is_some). -/
def remove_overlaps_full (l : List emit) : Option (List emit) :=
  (build_node (l.length + 1) l).map (fun t => remove_overlaps t l)

/-- Specification-side overlap finder, following the words of the claim:
every interval of the collection overlapping the query, never the query
itself. -/
def spec_overlaps (l : List emit) (i : emit) : List emit :=
  l.filter (fun j => !(interval_eq j i) && decide (j.start ≤ i.stop) && decide (j.stop ≥ i.start))

/-- Specification-side greedy marking, following the words of the claim:
walk the sorted collection; every interval not yet marked contributes all
of its overlaps to the marked set (the interval itself is never marked by
its own step). -/
def spec_mark_loop (l : List emit) : List emit → List emit → List emit
  | [], m => m
  | i :: is, m =>
    if m.any (fun y => interval_eq y i) then spec_mark_loop l is m
    else spec_mark_loop l is (m ++ spec_overlaps l i)

/-- Specification-side remove_overlaps, following the words of the claim:
sort descending by size with ties broken by descending start, greedily
mark every overlap of each not-yet-marked interval, drop exactly the
marked intervals, return the remainder sorted ascending by start. -/
def spec_remove_overlaps (l : List emit) : List emit :=
  let s := sort_with_lt cmp_size_desc l
  let m := spec_mark_loop l s []
  sort_with_lt interval_lt (s.filter (fun i => !(m.any (fun y => interval_eq y i))))

/-- Plain interval literal (keyword and index unused), for concrete
interval-tree inputs. -/
def mkiv (s e : Nat) : emit := ⟨s, e, [], 0⟩

/-- Embedding of basic_trie::config with the constructor defaults. -/
structure trie_config where
  allow_overlaps : Bool
  only_whole_words : Bool
  case_insensitive : Bool
  allow_substrings : Bool
  store_states_in_bfs_order : Bool

/-- Default-constructed config. -/
def default_config : trie_config := ⟨true, false, false, true, false⟩

/-- State of a basic_trie together with all of its state objects.  A
state is identified by its path from the root (the ownership graph is a
tree, so paths identify states); the per-state mutable fields d_emits,
d_failure and d_idx become total functions from paths.  A transition on
character c exists at state p exactly when the child path p ++ [c] is in
nodes, because set_transition is invoked exactly when add_state creates
that child.  fail_of p = none models a null d_failure pointer. -/
structure trie_state where
  cfg : trie_config
  nodes : List (List Char)
  emits_of : List Char → List (List Char × Nat)
  fail_of : List Char → Option (List Char)
  idx_of : List Char → Nat
  num_keywords : Nat
  state_count : Nat
  states_in_bfs_order : List (List Char)
  final_states_in_bfs_order : List (List Char)
  postprocessed : Bool

/-- Freshly constructed basic_trie: only the root state exists. -/
def empty_trie (c : trie_config) : trie_state :=
  ⟨c, [[]], fun _ => [], fun _ => none, fun _ => 0, 0, 0, [], [], false⟩

/-- Pointwise update of a per-state field. -/
def upd {β : Type} (f : List Char → β) (k : List Char) (v : β) : List Char → β :=
  fun q => if q = k then v else f q

/-- Embedding of state::next_state(character) (the root-defaulting form):
the child when the transition exists, otherwise the root returns itself
(d_root is non-null exactly for the root state) and every other state
returns null. -/
def next_state (st : trie_state) (p : List Char) (c : Char) : Option (List Char) :=
  if p ++ [c] ∈ st.nodes then some (p ++ [c])
  else if p = [] then some [] else none

/-- Embedding of state::add_state: return the existing child or create
it.  A freshly created state has empty emits, null failure and zero
index, which are the defaults of the total functions, so only nodes
changes. -/
def add_state (st : trie_state) (p : List Char) (c : Char) : trie_state × List Char :=
  if p ++ [c] ∈ st.nodes then (st, p ++ [c])
  else ({st with nodes := st.nodes ++ [p ++ [c]]}, p ++ [c])

/-- Walk or extend the path for a keyword, one add_state per character. -/
def add_path : trie_state → List Char → List Char → trie_state × List Char
  | st, p, [] => (st, p)
  | st, p, c :: cs =>
    let r := add_state st p c
    add_path r.1 r.2 cs

/-- Embedding of basic_trie::insert(keyword): empty keywords return the
root unchanged; otherwise the path is walked or extended and the keyword
with the next index is appended at the terminal state, unless that state
already has emits while substrings are disallowed, in which case null is
returned (and the keyword count is not advanced). -/
def insert (st : trie_state) (keyword : List Char) : trie_state × Option (List Char) :=
  if keyword = [] then (st, some [])
  else
    let r := add_path st [] keyword
    if (r.1.emits_of r.2).length = 0 ∨ r.1.cfg.allow_substrings then
      ({r.1 with
          emits_of := upd r.1.emits_of r.2 (r.1.emits_of r.2 ++ [(keyword, r.1.num_keywords)]),
          num_keywords := r.1.num_keywords + 1},
        some r.2)
    else (r.1, none)

/-- Loop body of the iterator-range insert overload.  The source loop is
for (InputIterator it = first; first != last; ++it) insert(*it): the
condition compares first with last but first is never advanced, so the
condition is re-tested unchanged while it walks forward; dereferencing it
past the end of the range is modelled by get? running off the list. -/
def insert_range_loop : Nat → trie_state → List (List Char) → Nat → Option trie_state
  | _, st, [], _ => some st
  | 0, _, _ :: _, _ => none
  | fuel + 1, st, k :: ks, it =>
    match (k :: ks).get? it with
    | none => none
    | some kw => insert_range_loop fuel (insert st kw).1 (k :: ks) (it + 1)

/-- Embedding of the bulk overload insert(first, last) over the range
modelled as a list, with fuel for the unbounded loop. -/
def insert_range (fuel : Nat) (st : trie_state) (l : List (List Char)) : Option trie_state :=
  insert_range_loop fuel st l 0

/-- Characters that have an outgoing transition at state p, read off the
node set (unsorted). -/
def child_chars (st : trie_state) (p : List Char) : List Char :=
  st.nodes.filterMap (fun q => if q ≠ [] ∧ q.dropLast = p then q.getLast? else none)

/-- Embedding of transition_map::get_transitions with the evidently
missing return statement restored (the source builds result and falls off
the end of the function, see claim C10): the transition characters in
std::map key order, i.e. ascending. -/
def get_transitions_fixed (st : trie_state) (p : List Char) : List Char :=
  sort_by (fun a b => decide (a.toNat ≤ b.toNat)) (child_chars st p)

/-- Embedding of transition_map::get_states with the missing return
statement restored: the child states in std::map key order. -/
def get_states_fixed (st : trie_state) (p : List Char) : List (List Char) :=
  (get_transitions_fixed st p).map (fun c => p ++ [c])

/-- BFS loop of basic_trie::assign_indices over the repaired transition
map: pop, freeze (a no-op), set the index, optionally record the state,
push the children, count. -/
def assign_indices_loop_fixed : Nat → trie_state → List (List Char) → Nat → Option (trie_state × Nat)
  | _, st, [], i => some (st, i)
  | 0, _, _ :: _, _ => none
  | fuel + 1, st, p :: rest, i =>
    let st1 := {st with
      idx_of := upd st.idx_of p i,
      states_in_bfs_order :=
        if st.cfg.store_states_in_bfs_order then st.states_in_bfs_order ++ [p]
        else st.states_in_bfs_order}
    assign_indices_loop_fixed fuel st1 (rest ++ get_states_fixed st1 p) (i + 1)

/-- basic_trie::assign_indices over the repaired transition map; the
final counter value becomes d_state_count. -/
def assign_indices_fixed (st : trie_state) : Option trie_state :=
  (assign_indices_loop_fixed st.nodes.length st [[]] 0).map
    (fun r => {r.1 with state_count := r.2})

/-- Embedding of basic_trie::remove_prefixes_from_state.  The assertion
emit_count < 2 is modelled as failure when violated. -/
def remove_prefixes_from_state (st : trie_state) (p : List Char) : Option trie_state :=
  if 2 ≤ (st.emits_of p).length then none
  else if (child_chars st p).length ≠ 0 ∧ (st.emits_of p).length ≠ 0 then
    some {st with emits_of := upd st.emits_of p []}
  else some st

/-- List traversal of remove_prefixes over the recorded BFS order (this
branch never calls the transition map accessors). -/
def remove_prefixes_list : trie_state → List (List Char) → Option trie_state
  | st, [] => some st
  | st, p :: rest =>
    match remove_prefixes_from_state st p with
    | none => none
    | some st1 => remove_prefixes_list st1 rest

/-- BFS-queue traversal of remove_prefixes over the repaired transition
map. -/
def remove_prefixes_loop_fixed : Nat → trie_state → List (List Char) → Option trie_state
  | _, st, [] => some st
  | 0, _, _ :: _ => none
  | fuel + 1, st, p :: rest =>
    match remove_prefixes_from_state st p with
    | none => none
    | some st1 => remove_prefixes_loop_fixed fuel st1 (rest ++ get_states_fixed st1 p)

/-- basic_trie::remove_prefixes over the repaired transition map (both
branches; the assertion that the recorded BFS order is nonempty is
modelled as failure). -/
def remove_prefixes_fixed (st : trie_state) : Option trie_state :=
  if st.cfg.store_states_in_bfs_order then
    if st.states_in_bfs_order = [] then none
    else remove_prefixes_list st st.states_in_bfs_order
  else remove_prefixes_loop_fixed st.nodes.length st [[]]

/-- Resolution of one failure link in construct_failure_states_fixed: fall back
through failure links until a state with the transition is found; under
disallowed substrings a final candidate has its emits cleared and the
back-off continues.  A null trace state (the root failure pointer) would
be dereferenced by the source, modelled as none. -/
def resolve_failure : Nat → trie_state → Option (List Char) → Char → Option (trie_state × List Char)
  | 0, _, _, _ => none
  | _ + 1, _, none, _ => none
  | fuel + 1, st, some t, c =>
    match next_state st t c with
    | none => resolve_failure fuel st (st.fail_of t) c
    | some nf =>
      if st.cfg.allow_substrings = false ∧ st.emits_of nf ≠ [] then
        resolve_failure fuel {st with emits_of := upd st.emits_of nf []} (st.fail_of t) c
      else some (st, nf)

/-- Mutation performed on a target state once its failure state is
resolved: target_state->set_failure(new_failure_state) followed by
target_state->add_emit(new_failure_state->get_emits()). -/
def apply_failure_update (st : trie_state) (target nf : List Char) : trie_state :=
  {st with
    fail_of := upd st.fail_of target (some nf),
    emits_of := upd st.emits_of target (st.emits_of target ++ st.emits_of nf)}

/-- Per-state body of the failure BFS: for each outgoing transition of
cur (in map order), push the target, resolve its failure and inherit the
emits of the failure state.  The pushed children accumulate in acc in
push order. -/
def process_transitions : trie_state → List Char → List Char → List (List Char) → Option (trie_state × List (List Char))
  | st, _, [], acc => some (st, acc)
  | st, cur, c :: cs, acc =>
    match next_state st cur c with
    | none => none
    | some target =>
      match resolve_failure (st.nodes.length + 1) st (st.fail_of cur) c with
      | none => none
      | some (st1, nf) =>
        process_transitions (apply_failure_update st1 target nf) cur cs (acc ++ [target])

/-- Outer BFS queue of construct_failure_states over the repaired
transition map. -/
def construct_failure_loop_fixed : Nat → trie_state → List (List Char) → Option trie_state
  | _, st, [] => some st
  | 0, _, _ :: _ => none
  | fuel + 1, st, cur :: rest =>
    match process_transitions st cur (get_transitions_fixed st cur) [] with
    | none => none
    | some (st1, children) => construct_failure_loop_fixed fuel st1 (rest ++ children)

/-- basic_trie::construct_failure_states over the repaired transition
map: the direct children of the root get the root as failure state and
seed the queue. -/
def construct_failure_states_fixed (st : trie_state) : Option trie_state :=
  let d1 := get_states_fixed st []
  let st1 := {st with fail_of := d1.foldl (fun f p => upd f p (some [])) st.fail_of}
  construct_failure_loop_fixed st1.nodes.length st1 d1

/-- basic_trie::check_postprocess over the repaired transition map: on
the first call assign indices, remove prefixes when substrings are
disallowed, construct the failure states, optionally record the final
states, set the flag. -/
def check_postprocess_fixed (st : trie_state) : Option trie_state :=
  if st.postprocessed then some st
  else
    match assign_indices_fixed st with
    | none => none
    | some st1 =>
      match (if st1.cfg.allow_substrings then some st1 else remove_prefixes_fixed st1) with
      | none => none
      | some st2 =>
        match construct_failure_states_fixed st2 with
        | none => none
        | some st3 =>
          let st4 :=
            if st3.cfg.store_states_in_bfs_order then
              {st3 with final_states_in_bfs_order :=
                st3.states_in_bfs_order.filter (fun p => (st3.emits_of p).length ≠ 0)}
            else st3
          some {st4 with postprocessed := true}

/-- Embedding of basic_trie::get_state (the scanning transition): follow
the transition, falling back through failure links while it is missing;
the root always yields a state.  A null failure pointer would be
dereferenced, modelled as none. -/
def get_state : Nat → trie_state → List Char → Char → Option (List Char)
  | 0, _, _, _ => none
  | fuel + 1, st, cur, c =>
    match next_state st cur c with
    | some r => some r
    | none =>
      match st.fail_of cur with
      | none => none
      | some f => get_state fuel st f c

/-- Embedding of basic_trie::store_emits.  The source computes the start
as pos - emit_str.size() + 1 in size_t; the embedding writes
pos + 1 - length, which coincides whenever length ≤ pos + 1 — the only
reachable case, because every stored keyword is a suffix of the text
consumed so far (theorem fixed_emit_round_trip). -/
def store_emits (pos : Nat) (st : trie_state) (cur : List Char) (acc : List emit) : List emit :=
  let es := st.emits_of cur
  if es = [] then acc
  else acc ++ es.map (fun ki => { start := pos + 1 - ki.1.length, stop := pos, keyword := ki.1, index := ki.2 })

/-- Model of std::tolower as used for CharType = char in the C locale. -/
def to_lower_char (c : Char) : Char := c.toLower

/-- Character walk of parse_text_fixed: lower-case if configured, step the
automaton, store the emits of the reached state. -/
def parse_loop : trie_state → List Char → List Char → Nat → List emit → Option (List emit)
  | _, _, [], _, acc => some acc
  | st, cur, c :: cs, pos, acc =>
    let c1 := if st.cfg.case_insensitive then to_lower_char c else c
    match get_state (st.nodes.length + 1) st cur c1 with
    | none => none
    | some nxt => parse_loop st nxt cs (pos + 1) (store_emits pos st nxt acc)

/-- Bounds-checked alphabetic test used by remove_partial_matches. -/
def is_alpha_at (text : List Char) (i : Nat) : Bool :=
  match text.get? i with
  | some ch => ch.isAlpha
  | none => false

/-- Embedding of basic_trie::remove_partial_matches: collect the emits
flanked by an alphabetic character and erase each of them (by interval
equality, the equality of emit) from the collection. -/
def remove_partial_matches (text : List Char) (es : List emit) : List emit :=
  let keep := fun (e : emit) =>
    (e.start == 0 || !(is_alpha_at text (e.start - 1))) &&
    (e.stop + 1 == text.length || !(is_alpha_at text (e.stop + 1)))
  let rem := es.filter (fun e => !(keep e))
  rem.foldl (fun r e => erase_first_iv e r) es

/-- Body of parse_text_fixed after the lazy compilation: walk the text from
the root collecting emits, then apply the whole-word filter and the
overlap removal when configured. -/
def parse_emits (st : trie_state) (text : List Char) : Option (List emit) :=
  match parse_loop st [] text 0 [] with
  | none => none
  | some collected =>
    let collected1 :=
      if st.cfg.only_whole_words then remove_partial_matches text collected else collected
    if st.cfg.allow_overlaps then some collected1
    else
      match build_node (collected1.length + 1) collected1 with
      | none => none
      | some t => some (remove_overlaps t collected1)

/-- Scan result paired with the (compiled, afterwards unchanged)
automaton state, to make any mutation of the automaton observable. -/
def parse_rest (st : trie_state) (text : List Char) : Option (trie_state × List emit) :=
  (parse_emits st text).map (fun es => (st, es))

/-- Lazy compilation over the repaired transition map followed by the
scan proper (the intended-behaviour variant of basic_trie::parse_text,
compare claim C10). -/
def parse_text_fixed (st0 : trie_state) (text : List Char) : Option (trie_state × List emit) :=
  match check_postprocess_fixed st0 with
  | none => none
  | some st => parse_rest st text

/-- Embedding of transition_map::get_states as written: the function
builds a local result collection but ends without a return statement on
every path, so each call falls off the end of a non-void function and
never yields a defined value (undefined behaviour, modelled as none). -/
def get_states (_ : trie_state) (_ : List Char) : Option (List (List Char)) :=
  none

/-- Embedding of transition_map::get_transitions as written: it likewise
ends without a return statement on every path, so no defined transition
collection is ever returned (undefined behaviour, modelled as none). -/
def get_transitions (_ : trie_state) (_ : List Char) : Option (List Char) :=
  none

/-- BFS loop of basic_trie::assign_indices as written: pop, freeze (a
no-op), set the index, optionally record the state, then enumerate the
children through get_states, which executes undefined behaviour. -/
def assign_indices_loop : Nat → trie_state → List (List Char) → Nat → Option (trie_state × Nat)
  | _, st, [], i => some (st, i)
  | 0, _, _ :: _, _ => none
  | fuel + 1, st, p :: rest, i =>
    let st1 := {st with
      idx_of := upd st.idx_of p i,
      states_in_bfs_order :=
        if st.cfg.store_states_in_bfs_order then st.states_in_bfs_order ++ [p]
        else st.states_in_bfs_order}
    match get_states st1 p with
    | none => none
    | some children => assign_indices_loop fuel st1 (rest ++ children) (i + 1)

/-- Embedding of basic_trie::assign_indices as written; the final counter
value becomes d_state_count. -/
def assign_indices (st : trie_state) : Option trie_state :=
  (assign_indices_loop st.nodes.length st [[]] 0).map
    (fun r => {r.1 with state_count := r.2})

/-- BFS-queue traversal of remove_prefixes as written: enumerating the
children through get_states executes undefined behaviour. -/
def remove_prefixes_loop : Nat → trie_state → List (List Char) → Option trie_state
  | _, st, [] => some st
  | 0, _, _ :: _ => none
  | fuel + 1, st, p :: rest =>
    match remove_prefixes_from_state st p with
    | none => none
    | some st1 =>
      match get_states st1 p with
      | none => none
      | some children => remove_prefixes_loop fuel st1 (rest ++ children)

/-- Embedding of basic_trie::remove_prefixes as written (the recorded
BFS-order branch never calls get_states; the queue branch does). -/
def remove_prefixes (st : trie_state) : Option trie_state :=
  if st.cfg.store_states_in_bfs_order then
    if st.states_in_bfs_order = [] then none
    else remove_prefixes_list st st.states_in_bfs_order
  else remove_prefixes_loop st.nodes.length st [[]]

/-- BFS loop of construct_failure_states as written: each visited state
enumerates its transition characters through get_transitions, which
executes undefined behaviour. -/
def construct_failure_loop : Nat → trie_state → List (List Char) → Option trie_state
  | _, st, [] => some st
  | 0, _, _ :: _ => none
  | fuel + 1, st, cur :: rest =>
    match get_transitions st cur with
    | none => none
    | some cs =>
      match process_transitions st cur cs [] with
      | none => none
      | some (st1, children) => construct_failure_loop fuel st1 (rest ++ children)

/-- Embedding of basic_trie::construct_failure_states as written: the
depth-one states are enumerated through the root state's get_states,
which executes undefined behaviour before any failure link is set. -/
def construct_failure_states (st : trie_state) : Option trie_state :=
  match get_states st [] with
  | none => none
  | some d1 =>
    let st1 := {st with fail_of := d1.foldl (fun f p => upd f p (some [])) st.fail_of}
    construct_failure_loop st1.nodes.length st1 d1

/-- Embedding of basic_trie::check_postprocess as written: on the first
call it runs assign_indices, whose child enumeration executes undefined
behaviour before any index or failure link is produced. -/
def check_postprocess (st : trie_state) : Option trie_state :=
  if st.postprocessed then some st
  else
    match assign_indices st with
    | none => none
    | some st1 =>
      match (if st1.cfg.allow_substrings then some st1 else remove_prefixes st1) with
      | none => none
      | some st2 =>
        match construct_failure_states st2 with
        | none => none
        | some st3 =>
          let st4 :=
            if st3.cfg.store_states_in_bfs_order then
              {st3 with final_states_in_bfs_order :=
                st3.states_in_bfs_order.filter (fun p => (st3.emits_of p).length ≠ 0)}
            else st3
          some {st4 with postprocessed := true}

/-- Embedding of basic_trie::parse_text as written: lazy compilation
followed by the scan proper; on a not yet postprocessed automaton the
compilation reaches undefined behaviour. -/
def parse_text (st0 : trie_state) (text : List Char) : Option (trie_state × List emit) :=
  match check_postprocess st0 with
  | none => none
  | some st => parse_rest st text

/-- Trie built by inserting the keywords in order under a configuration. -/
def build_trie_with (c : trie_config) (kws : List (List Char)) : trie_state :=
  kws.foldl (fun st k => (insert st k).1) (empty_trie c)

/-- Trie built under the default configuration. -/
def build_trie (kws : List (List Char)) : trie_state :=
  build_trie_with default_config kws

/-- Longest suffix of q that belongs to N, the empty path when none
does. -/
def longest_suffix_in (N : List (List Char)) : List Char → List Char
  | [] => []
  | c :: t => if (c :: t) ∈ N then c :: t else longest_suffix_in N t

/-- Longest proper suffix of p that is a path of the trie with node set
N (the declarative characterisation of the failure link): the longest
suffix of p with its first character dropped that belongs to N. -/
def lps (N : List (List Char)) (p : List Char) : List Char :=
  longest_suffix_in N (p.drop 1)

/-- Keyword set of the worked example of the specification. -/
def ushers_keywords : List (List Char) :=
  [['h', 'e'], ['s', 'h', 'e'], ['h', 'e', 'r', 's'], ['h', 'i', 's']]

/-- Text of the worked example of the specification. -/
def ushers_text : List Char := ['u', 's', 'h', 'e', 'r', 's']

/-- Emits actually produced by scanning ushers with the default
configuration. -/
def ushers_scan_result : List emit :=
  [⟨1, 3, ['s', 'h', 'e'], 1⟩, ⟨2, 3, ['h', 'e'], 0⟩, ⟨2, 5, ['h', 'e', 'r', 's'], 2⟩]

/-- Worked-example trie with BFS-order bookkeeping enabled, for the
traversal claim. -/
def bfs_example_trie : trie_state :=
  build_trie_with { default_config with store_states_in_bfs_order := true } ushers_keywords

/-- BFS visitation order of the worked-example trie. -/
def bfs_example_order : List (List Char) :=
  [[], ['h'], ['s'], ['h', 'e'], ['h', 'i'], ['s', 'h'],
   ['h', 'e', 'r'], ['h', 'i', 's'], ['s', 'h', 'e'], ['h', 'e', 'r', 's']]

/-- Interval collection on which the overlap-removal marking set loses an
entry: three intervals sharing the start position 0. -/
def shared_start_intervals : List emit := [mkiv 0 5, mkiv 0 2, mkiv 0 1]

/-- Sanity of an interval collection: well-formed closed intervals with
positions small enough that the size_t arithmetic of determine_median
cannot wrap (any bound below 2 ^ 63 would do). -/
def sane (l : List emit) : Prop := ∀ e ∈ l, e.start ≤ e.stop ∧ e.stop ≤ 2 ^ 62

/-- Pairwise-distinct start positions. -/
def distinct_starts (l : List emit) : Prop := l.Pairwise (fun a b => a.start ≠ b.start)

/-- Closure of a node-path set under taking the parent: children are
created only by add_state from an existing state. -/
def nodes_closed (N : List (List Char)) : Prop := ∀ p c, p ++ [c] ∈ N → p ∈ N

/-- Structural well-formedness of the state graph: the root exists, each
path appears once, and the set of paths is parent-closed. -/
def trie_wf (st : trie_state) : Prop :=
  [] ∈ st.nodes ∧ st.nodes.Nodup ∧ nodes_closed st.nodes

/-- Every emit stored at a state names a non-empty keyword that is a
suffix of the state path (after insertion the keyword equals the path;
construct_failure_states_fixed unions in emits inherited through failure links,
which point at suffixes). -/
def emits_are_suffixes (st : trie_state) : Prop :=
  ∀ p k i, (k, i) ∈ st.emits_of p → (List.IsSuffix k p ∧ k ≠ [])

/-- All failure pointers are still null (state before compilation). -/
def fail_is_none (st : trie_state) : Prop := ∀ p, st.fail_of p = none

/-- Declarative failure-link correctness: every non-root state points at
the longest proper suffix of its path that is itself a path. -/
def fail_resolved (st : trie_state) : Prop :=
  ∀ p, p ∈ st.nodes → p ≠ [] → st.fail_of p = some (lps st.nodes p)

/- ------------------------------------------------------------------ -/
/- Theorems.                                                           -/
/- ------------------------------------------------------------------ -/

theorem check_postprocess_flag {st st' : trie_state}
    (h : check_postprocess_fixed st = some st') : st'.postprocessed = true := by
  unfold check_postprocess_fixed at h
  split at h
  · next hflag =>
    injection h with h1
    subst h1
    exact hflag
  · split at h
    · exact Option.noConfusion h
    · split at h
      · exact Option.noConfusion h
      · split at h
        · exact Option.noConfusion h
        · injection h with h1
          subst h1
          rfl

theorem check_postprocess_of_flag {st : trie_state}
    (h : st.postprocessed = true) : check_postprocess_fixed st = some st := by
  unfold check_postprocess_fixed
  simp [h]

theorem parse_rest_fst {st : trie_state} {text : List Char} {r : trie_state × List emit}
    (h : parse_rest st text = some r) : r.1 = st := by
  unfold parse_rest at h
  obtain ⟨es, -, h2⟩ := Option.map_eq_some'.mp h
  rw [← h2]

/-- Companion over the repaired transition map (compare claim C10): once
a scan has returned a result, scanning again with the same text returns
the same emit sequence and the same automaton state (scanning mutates
nothing after the first, lazily compiling, call), and compilation is
idempotent: a repeated check_postprocess_fixed returns the automaton
unchanged. -/
theorem fixed_scan_idempotent (st0 : trie_state) (text : List Char)
    (st1 : trie_state) (es : List emit)
    (h : parse_text_fixed st0 text = some (st1, es)) :
    check_postprocess_fixed st1 = some st1 ∧ parse_text_fixed st1 text = some (st1, es) := by
  unfold parse_text_fixed at h
  cases hc : check_postprocess_fixed st0 with
  | none => rw [hc] at h; exact Option.noConfusion h
  | some st' =>
    rw [hc] at h
    have hfst : st1 = st' := parse_rest_fst h
    subst hfst
    have hpp : st1.postprocessed = true := check_postprocess_flag hc
    have hcp : check_postprocess_fixed st1 = some st1 := check_postprocess_of_flag hpp
    refine ⟨hcp, ?_⟩
    unfold parse_text_fixed
    rw [hcp]
    exact h

/-- fixed_scan_idempotent evaluated at the worked example. -/
theorem fixed_scan_idempotent_example :
    ∃ st es, parse_text_fixed (build_trie ushers_keywords) ushers_text = some (st, es) ∧
      check_postprocess_fixed st = some st ∧ parse_text_fixed st ushers_text = some (st, es) := by
  cases h : parse_text_fixed (build_trie ushers_keywords) ushers_text with
  | none =>
    have hs : (parse_text_fixed (build_trie ushers_keywords) ushers_text).isSome = true := by decide
    rw [h] at hs
    exact Bool.noConfusion hs
  | some p =>
    obtain ⟨st, es⟩ := p
    have hc := fixed_scan_idempotent _ _ _ _ h
    exact ⟨st, es, ⟨rfl, hc.1, hc.2⟩⟩

theorem add_state_snd (st : trie_state) (p : List Char) (c : Char) :
    (add_state st p c).2 = p ++ [c] := by
  unfold add_state; split <;> rfl

theorem add_state_preserves (st : trie_state) (p : List Char) (c : Char) :
    (add_state st p c).1.emits_of = st.emits_of ∧
    (add_state st p c).1.fail_of = st.fail_of ∧
    (add_state st p c).1.cfg = st.cfg ∧
    (add_state st p c).1.num_keywords = st.num_keywords ∧
    (add_state st p c).1.postprocessed = st.postprocessed := by
  unfold add_state; split <;> exact ⟨rfl, rfl, rfl, rfl, rfl⟩

theorem add_path_snd : ∀ (q : List Char) (st : trie_state) (p : List Char),
    (add_path st p q).2 = p ++ q := by
  intro q
  induction q with
  | nil => intro st p; simp [add_path]
  | cons c cs ih =>
    intro st p
    show (add_path (add_state st p c).1 (add_state st p c).2 cs).2 = p ++ (c :: cs)
    simp [ih, add_state_snd]

theorem add_path_preserves : ∀ (q : List Char) (st : trie_state) (p : List Char),
    (add_path st p q).1.emits_of = st.emits_of ∧
    (add_path st p q).1.fail_of = st.fail_of ∧
    (add_path st p q).1.cfg = st.cfg ∧
    (add_path st p q).1.num_keywords = st.num_keywords ∧
    (add_path st p q).1.postprocessed = st.postprocessed := by
  intro q
  induction q with
  | nil => intro st p; exact ⟨rfl, rfl, rfl, rfl, rfl⟩
  | cons c cs ih =>
    intro st p
    obtain ⟨h1, h2, h3, h4, h5⟩ := ih (add_state st p c).1 (add_state st p c).2
    obtain ⟨g1, g2, g3, g4, g5⟩ := add_state_preserves st p c
    exact ⟨h1.trans g1, h2.trans g2, h3.trans g3, h4.trans g4, h5.trans g5⟩

theorem insert_empty_kw (st : trie_state) : insert st [] = (st, some []) := by
  unfold insert; simp

theorem insert_accept {st : trie_state} {k : List Char} (hk : k ≠ [])
    (hacc : (st.emits_of k).length = 0 ∨ st.cfg.allow_substrings) :
    (insert st k).2 = some k ∧
    (insert st k).1.num_keywords = st.num_keywords + 1 ∧
    (insert st k).1.emits_of k = st.emits_of k ++ [(k, st.num_keywords)] ∧
    (∀ p, p ≠ k → (insert st k).1.emits_of p = st.emits_of p) ∧
    (insert st k).1.cfg = st.cfg ∧
    (insert st k).1.postprocessed = st.postprocessed ∧
    (insert st k).1.fail_of = st.fail_of := by
  obtain ⟨he, hf, hc, hn, hp⟩ := add_path_preserves k st []
  have hsnd : (add_path st [] k).2 = k := by simpa using add_path_snd k st []
  have hcond : ((add_path st [] k).1.emits_of (add_path st [] k).2).length = 0 ∨
      (add_path st [] k).1.cfg.allow_substrings = true := by
    rw [he, hc, hsnd]; simpa using hacc
  unfold insert
  rw [if_neg hk, if_pos hcond]
  refine ⟨by rw [hsnd], by simpa using hn, ?_, ?_, by simpa using hc, by simpa using hp,
    by simpa using hf⟩
  · show upd (add_path st [] k).1.emits_of (add_path st [] k).2 _ k = _
    rw [hsnd, he, hn]
    simp [upd]
  · intro p hpk
    show upd (add_path st [] k).1.emits_of (add_path st [] k).2 _ p = _
    rw [hsnd, he]
    simp [upd, hpk]

theorem insert_reject {st : trie_state} {k : List Char} (hk : k ≠ [])
    (hrej : ¬(((st.emits_of k).length = 0) ∨ st.cfg.allow_substrings = true)) :
    (insert st k).2 = none ∧
    (insert st k).1.num_keywords = st.num_keywords ∧
    (insert st k).1.emits_of = st.emits_of ∧
    (insert st k).1.cfg = st.cfg ∧
    (insert st k).1.postprocessed = st.postprocessed ∧
    (insert st k).1.fail_of = st.fail_of := by
  obtain ⟨he, hf, hc, hn, hp⟩ := add_path_preserves k st []
  have hsnd : (add_path st [] k).2 = k := by simpa using add_path_snd k st []
  have hcond : ¬(((add_path st [] k).1.emits_of (add_path st [] k).2).length = 0 ∨
      (add_path st [] k).1.cfg.allow_substrings = true) := by
    rw [he, hc, hsnd]; simpa using hrej
  unfold insert
  rw [if_neg hk, if_neg hcond]
  exact ⟨rfl, hn, he, hc, hp, hf⟩

/-- C6: insert returns the root with no side effects on the empty
keyword; it returns a null handle exactly when the terminal state of the
keyword already carries a non-empty emit set while substrings are
disallowed, leaving the keyword count and all emit sets (hence all
indices) unchanged; otherwise it appends the keyword with the next unused
index at the terminal state (whose path is the keyword itself) and
returns that state. -/
theorem c6_insert_contract (st : trie_state) (kw : List Char) :
    (kw = [] → insert st kw = (st, some [])) ∧
    (kw ≠ [] →
      ((insert st kw).2 = none ↔
        (st.emits_of kw ≠ [] ∧ st.cfg.allow_substrings = false)) ∧
      ((insert st kw).2 = none →
        (insert st kw).1.num_keywords = st.num_keywords ∧
        (insert st kw).1.emits_of = st.emits_of) ∧
      ((insert st kw).2 ≠ none →
        (insert st kw).2 = some kw ∧
        (insert st kw).1.num_keywords = st.num_keywords + 1 ∧
        (insert st kw).1.emits_of kw = st.emits_of kw ++ [(kw, st.num_keywords)] ∧
        ∀ p, p ≠ kw → (insert st kw).1.emits_of p = st.emits_of p)) := by
  constructor
  · intro h; subst h; exact insert_empty_kw st
  · intro hk
    by_cases hacc : ((st.emits_of kw).length = 0) ∨ st.cfg.allow_substrings = true
    · obtain ⟨a1, a2, a3, a4, _, _, _⟩ := insert_accept hk (by simpa using hacc)
      refine ⟨?_, ?_, ?_⟩
      · rw [a1]
        constructor
        · intro hcontr; exact Option.noConfusion hcontr
        · rintro ⟨hne, hsub⟩
          rcases hacc with h0 | hb
          · exact absurd (List.length_eq_zero.mp h0) hne
          · rw [hsub] at hb; exact Bool.noConfusion hb
      · intro h0; rw [a1] at h0; exact Option.noConfusion h0
      · intro _; exact ⟨a1, a2, a3, a4⟩
    · obtain ⟨r1, r2, r3, _, _, _⟩ := insert_reject hk hacc
      push_neg at hacc
      obtain ⟨hlen, hsub⟩ := hacc
      refine ⟨?_, ?_, ?_⟩
      · rw [r1]
        constructor
        · intro _
          refine ⟨fun h0 => hlen (by rw [h0]; rfl), ?_⟩
          cases hb : st.cfg.allow_substrings
          · rfl
          · exact absurd hb hsub
        · intro _; rfl
      · intro _; exact ⟨r2, r3⟩
      · intro h0; exact absurd r1 h0

/-- Witness for c6_insert_contract on a fresh automaton. -/
theorem c6_insert_contract_witness :
    (insert (empty_trie default_config) ['a']).2 = some ['a'] ∧
    (insert (empty_trie default_config) ['a']).1.num_keywords = 1 ∧
    (insert (empty_trie default_config) ['a']).1.emits_of ['a'] = [(['a'], 0)] := by
  have h := (c6_insert_contract (empty_trie default_config) ['a']).2 (by decide)
  obtain ⟨hiff, _, hacc⟩ := h
  have hne : (insert (empty_trie default_config) ['a']).2 ≠ none := by
    intro h0
    have h1 := hiff.mp h0
    exact absurd h1.1 (by decide)
  obtain ⟨h1, h2, h3, _⟩ := hacc hne
  refine ⟨h1, h2.trans (by decide), h3.trans (by decide)⟩

theorem insert_fold_good :
    ∀ (ks : List (List Char)) (st : trie_state) (L : List (List Char)),
      (L ++ ks).Nodup → (∀ k ∈ ks, k ≠ []) →
      st.num_keywords = L.length →
      (∀ i (h : i < L.length), st.emits_of (L.get ⟨i, h⟩) = [(L.get ⟨i, h⟩, i)]) →
      (∀ p, p ∉ L → st.emits_of p = []) →
      (ks.foldl (fun s k => (insert s k).1) st).num_keywords = (L ++ ks).length ∧
      (∀ i (h : i < (L ++ ks).length),
        (ks.foldl (fun s k => (insert s k).1) st).emits_of ((L ++ ks).get ⟨i, h⟩) =
          [((L ++ ks).get ⟨i, h⟩, i)]) ∧
      (∀ p, p ∉ L ++ ks → (ks.foldl (fun s k => (insert s k).1) st).emits_of p = []) := by
  intro ks
  induction ks with
  | nil =>
    intro st L hnd _ h1 h2 h3
    simpa using ⟨h1, h2, h3⟩
  | cons k ks ih =>
    intro st L hnd hne h1 h2 h3
    have hkL : k ∉ L := by
      rw [List.nodup_append] at hnd
      intro hmem
      exact hnd.2.2 hmem (by simp)
    have hk : k ≠ [] := hne k (by simp)
    have hek : st.emits_of k = [] := h3 k hkL
    obtain ⟨_, a2, a3, a4, _, _, _⟩ := insert_accept hk (Or.inl (by rw [hek]; rfl))
    have happ : L ++ k :: ks = (L ++ [k]) ++ ks := by simp
    rw [show (k :: ks).foldl (fun s k => (insert s k).1) st =
          ks.foldl (fun s k => (insert s k).1) (insert st k).1 from rfl, happ]
    refine ih (insert st k).1 (L ++ [k]) (by rw [← happ]; exact hnd)
      (fun k' hk' => hne k' (by simp [hk'])) ?_ ?_ ?_
    · rw [a2, h1]; simp
    · intro i hilt
      rcases Nat.lt_or_ge i L.length with hi | hi
      · have hget : (L ++ [k]).get ⟨i, hilt⟩ = L.get ⟨i, hi⟩ := List.get_append i hi
        rw [hget, a4 _ ?_, h2 i hi]
        intro hcontr
        exact hkL (hcontr ▸ List.get_mem L i hi)
      · have hieq : i = L.length := by
          have := hilt; simp at this; omega
        subst hieq
        have hget : (L ++ [k]).get ⟨L.length, hilt⟩ = k := List.get_of_append rfl rfl
        rw [hget, a3, hek, h1]
        rfl
    · intro p hp
      have hpk : p ≠ k := by intro hc; exact hp (by simp [hc])
      have hpL : p ∉ L := by intro hc; exact hp (by simp [hc])
      rw [a4 p hpk]
      exact h3 p hpL

/-- C7 as amended: for every configuration and every sequence of
pairwise-distinct non-empty keywords (all of which are accepted),
keyword indices are assigned sequentially from 0 in insertion order, each
keyword is associated with exactly one index, and no other state carries
an emit.  (The original claim fails when the same keyword is inserted
twice while substrings are allowed: both insertions are accepted and the
keyword receives two indices, see the counterexample.) -/
theorem c7_amended_indices (cfg : trie_config) (kws : List (List Char))
    (hnd : kws.Nodup) (hne : ∀ k ∈ kws, k ≠ []) :
    (build_trie_with cfg kws).num_keywords = kws.length ∧
    (∀ i (h : i < kws.length),
      (build_trie_with cfg kws).emits_of (kws.get ⟨i, h⟩) = [(kws.get ⟨i, h⟩, i)]) ∧
    (∀ p, p ∉ kws → (build_trie_with cfg kws).emits_of p = []) := by
  have h := insert_fold_good kws (empty_trie cfg) [] (by simpa using hnd) hne rfl
    (fun i h => absurd h (by simp)) (fun _ _ => rfl)
  simpa using h

/-- Witness for c7_amended_indices on two distinct keywords. -/
theorem c7_amended_indices_witness :
    (build_trie_with default_config [['h', 'e'], ['s', 'h', 'e']]).num_keywords = 2 ∧
    (build_trie_with default_config [['h', 'e'], ['s', 'h', 'e']]).emits_of ['s', 'h', 'e'] =
      [(['s', 'h', 'e'], 1)] ∧
    (build_trie_with default_config [['h', 'e'], ['s', 'h', 'e']]).emits_of ['h'] = [] := by
  have h := c7_amended_indices default_config [['h', 'e'], ['s', 'h', 'e']]
    (by decide) (by decide)
  refine ⟨h.1, ?_, h.2.2 ['h'] (by decide)⟩
  have h2 := h.2.1 1 (by decide)
  simpa using h2

/-- C4: the overlap-removal reduction can retain two distinct,
overlapping intervals.  On the collection [0,5], [0,2], [0,1] the std set
remove_tmp, ordered by start position only, keeps a single marked
interval per start, so [0,2] is skipped as already marked yet never
removed: the output [0,5], [0,1] contains an overlapping pair,
contradicting the claimed zero-pairwise-overlap guarantee. -/
theorem c4_remove_overlaps_overlapping_output :
    remove_overlaps_full shared_start_intervals = some [mkiv 0 5, mkiv 0 1] ∧
    (mkiv 0 5).overlaps_with (mkiv 0 1) ∧ mkiv 0 5 ≠ mkiv 0 1 := by
  decide

/-- Counterexample for C3: on the collection [0,5], [0,2], [0,1] the
source remove_overlaps returns [0,5], [0,1], while the marking policy
described by the claim (mark every overlap of each not-yet-marked
interval, drop exactly the marked ones) returns [0,5] alone. -/
theorem c3_counterexample :
    remove_overlaps_full shared_start_intervals = some [mkiv 0 5, mkiv 0 1] ∧
    spec_remove_overlaps shared_start_intervals = [mkiv 0 5] ∧
    remove_overlaps_full shared_start_intervals ≠
      some (spec_remove_overlaps shared_start_intervals) := by
  decide

/-- Companion over the repaired transition map (compare claim C10):
scanning ushers under the default configuration yields she at [1,3], he
at [2,3] and hers at [2,5]; in particular no emit has keyword he with
end 4 and no emit has keyword hers with interval [1,4] — even the
repaired program contradicts the intervals stated by claim C5. -/
theorem fixed_ushers_scan_deviation :
    (parse_text_fixed (build_trie ushers_keywords) ushers_text).map (fun r => r.2) =
      some ushers_scan_result ∧
    (∀ e ∈ ushers_scan_result, ¬(e.keyword = ['h', 'e'] ∧ e.stop = 4)) ∧
    (∀ e ∈ ushers_scan_result, ¬(e.keyword = ['h', 'e', 'r', 's'] ∧ e.start = 1 ∧ e.stop = 4)) := by
  decide

/-- Companion over the repaired transition map: scanning ushers on the
automaton for he, she, hers, his with overlaps and substrings allowed
yields exactly the emits she with interval [1,3], he with interval [2,3]
and hers with interval [2,5], in ascending end order, the overlapping
results coexisting. -/
theorem fixed_ushers_scan_result :
    (parse_text_fixed (build_trie ushers_keywords) ushers_text).map (fun r => r.2) =
      some ushers_scan_result := by
  decide

/-- Counterexample for C7: inserting the keyword a twice under the
default configuration (substrings allowed) is accepted both times and
associates the same keyword with the two indices 0 and 1. -/
theorem c7_counterexample :
    (build_trie [['a'], ['a']]).emits_of ['a'] = [(['a'], 0), (['a'], 1)] ∧
    ¬(∀ i j, (['a'], i) ∈ (build_trie [['a'], ['a']]).emits_of ['a'] →
        (['a'], j) ∈ (build_trie [['a'], ['a']]).emits_of ['a'] → i = j) := by
  refine ⟨by decide, fun hall => ?_⟩
  have h01 := hall 0 1 (by decide) (by decide)
  exact absurd h01 (by decide)

theorem insert_range_loop_singleton_none :
    ∀ fuel st it, 1 ≤ it → insert_range_loop fuel st [['a']] it = none := by
  intro fuel
  induction fuel with
  | zero => intro st it _; rfl
  | succ f ih =>
    intro st it hit
    have hget : ([['a']] : List (List Char)).get? it = none := by
      cases it with
      | zero => omega
      | succ n => cases n <;> rfl
    simp only [insert_range_loop, hget]

/-- C9: the iterator-range insert overload never terminates on a
non-empty range (its loop condition compares first with last but only it
is advanced, so it walks past the end of the range), while on an empty
range it terminates immediately without inserting anything.  This
contradicts the claim that the overload inserts the keywords of every
valid range. -/
theorem c9_insert_range_diverges :
    (∀ fuel st, insert_range fuel st [['a']] = none) ∧
    (∀ fuel st, insert_range fuel st [] = some st) := by
  constructor
  · intro fuel st
    unfold insert_range
    cases fuel with
    | zero => rfl
    | succ f =>
      have hget : ([['a']] : List (List Char)).get? 0 = some ['a'] := rfl
      simp only [insert_range_loop, hget]
      exact insert_range_loop_singleton_none f _ 1 (by omega)
  · intro fuel st
    cases fuel <;> rfl

theorem det_start_aux_cons (acc : Nat) (i : emit) (is : List emit) :
    det_start_aux acc (i :: is) =
    det_start_aux (if acc == max_pos || decide (i.start < acc) then i.start else acc) is := rfl

theorem det_end_aux_cons (acc : Nat) (i : emit) (is : List emit) :
    det_end_aux acc (i :: is) =
    det_end_aux (if acc == max_pos || decide (i.stop > acc) then i.stop else acc) is := rfl

theorem det_start_aux_le :
    ∀ (l : List emit) (acc : Nat), (∀ e ∈ l, e.start < max_pos) → acc ≠ max_pos →
      det_start_aux acc l ≤ acc ∧ det_start_aux acc l ≠ max_pos := by
  intro l
  induction l with
  | nil => intro acc _ hacc; exact ⟨le_rfl, hacc⟩
  | cons i is ih =>
    intro acc hb hacc
    rw [det_start_aux_cons]
    by_cases hc : (acc == max_pos || decide (i.start < acc)) = true
    · rw [if_pos hc]
      have hi : i.start < max_pos := hb i (by simp)
      have hile : i.start ≤ acc := by
        rcases Bool.or_eq_true_iff.mp hc with h | h
        · exact absurd (by simpa using h) hacc
        · exact Nat.le_of_lt (by simpa using h)
      have := ih i.start (fun e he => hb e (by simp [he])) (Nat.ne_of_lt hi)
      exact ⟨this.1.trans hile, this.2⟩
    · rw [if_neg hc]
      exact ih acc (fun e he => hb e (by simp [he])) hacc

theorem det_start_aux_lb :
    ∀ (l : List emit) (acc : Nat), (∀ e ∈ l, e.start < max_pos) →
      ∀ e ∈ l, det_start_aux acc l ≤ e.start := by
  intro l
  induction l with
  | nil => intro acc _ e he; cases he
  | cons i is ih =>
    intro acc hb e he
    rw [det_start_aux_cons]
    rcases List.mem_cons.mp he with rfl | hmem
    · by_cases hc : (acc == max_pos || decide (e.start < acc)) = true
      · rw [if_pos hc]
        exact (det_start_aux_le is e.start (fun x hx => hb x (by simp [hx]))
          (Nat.ne_of_lt (hb e (by simp)))).1
      · rw [if_neg hc]
        have h1 : acc ≠ max_pos := by
          intro h0; exact hc (by simp [h0])
        have h2 : ¬(e.start < acc) := by
          intro h0; exact hc (by simp [h0])
        exact le_trans (det_start_aux_le is acc (fun x hx => hb x (by simp [hx])) h1).1
          (Nat.le_of_not_lt h2)
    · exact ih _ (fun x hx => hb x (by simp [hx])) e hmem

theorem det_start_aux_spec :
    ∀ (l : List emit) (acc : Nat),
      det_start_aux acc l = acc ∨ ∃ x ∈ l, det_start_aux acc l = x.start := by
  intro l
  induction l with
  | nil => intro acc; exact Or.inl rfl
  | cons i is ih =>
    intro acc
    rw [det_start_aux_cons]
    by_cases hc : (acc == max_pos || decide (i.start < acc)) = true
    · rw [if_pos hc]
      rcases ih i.start with h | ⟨x, hx, h⟩
      · exact Or.inr ⟨i, by simp, h⟩
      · exact Or.inr ⟨x, by simp [hx], h⟩
    · rw [if_neg hc]
      rcases ih acc with h | ⟨x, hx, h⟩
      · exact Or.inl h
      · exact Or.inr ⟨x, by simp [hx], h⟩

theorem det_end_aux_ge_acc :
    ∀ (l : List emit) (acc : Nat), (∀ e ∈ l, e.stop < max_pos) → acc ≠ max_pos →
      acc ≤ det_end_aux acc l ∧ det_end_aux acc l ≠ max_pos := by
  intro l
  induction l with
  | nil => intro acc _ hacc; exact ⟨le_rfl, hacc⟩
  | cons i is ih =>
    intro acc hb hacc
    rw [det_end_aux_cons]
    by_cases hc : (acc == max_pos || decide (i.stop > acc)) = true
    · rw [if_pos hc]
      have hi : i.stop < max_pos := hb i (by simp)
      have hile : acc ≤ i.stop := by
        rcases Bool.or_eq_true_iff.mp hc with h | h
        · exact absurd (by simpa using h) hacc
        · exact Nat.le_of_lt (by simpa using h)
      have := ih i.stop (fun e he => hb e (by simp [he])) (Nat.ne_of_lt hi)
      exact ⟨hile.trans this.1, this.2⟩
    · rw [if_neg hc]
      exact ih acc (fun e he => hb e (by simp [he])) hacc

theorem det_end_aux_ub :
    ∀ (l : List emit) (acc B : Nat), (∀ e ∈ l, e.stop ≤ B) → acc ≤ B →
      det_end_aux acc l ≤ B := by
  intro l
  induction l with
  | nil => intro acc B _ hacc; exact hacc
  | cons i is ih =>
    intro acc B hb hacc
    rw [det_end_aux_cons]
    by_cases hc : (acc == max_pos || decide (i.stop > acc)) = true
    · rw [if_pos hc]; exact ih _ _ (fun e he => hb e (by simp [he])) (hb i (by simp))
    · rw [if_neg hc]; exact ih _ _ (fun e he => hb e (by simp [he])) hacc

theorem det_start_aux_ub :
    ∀ (l : List emit) (acc B : Nat), (∀ e ∈ l, e.start ≤ B) → acc ≤ B →
      det_start_aux acc l ≤ B := by
  intro l
  induction l with
  | nil => intro acc B _ hacc; exact hacc
  | cons i is ih =>
    intro acc B hb hacc
    rw [det_start_aux_cons]
    by_cases hc : (acc == max_pos || decide (i.start < acc)) = true
    · rw [if_pos hc]; exact ih _ _ (fun e he => hb e (by simp [he])) (hb i (by simp))
    · rw [if_neg hc]; exact ih _ _ (fun e he => hb e (by simp [he])) hacc

theorem det_end_aux_ge :
    ∀ (l : List emit) (acc : Nat), (∀ e ∈ l, e.stop < max_pos) →
      ∀ e ∈ l, e.stop ≤ det_end_aux acc l := by
  intro l
  induction l with
  | nil => intro acc _ e he; cases he
  | cons i is ih =>
    intro acc hb e he
    rw [det_end_aux_cons]
    rcases List.mem_cons.mp he with rfl | hmem
    · by_cases hc : (acc == max_pos || decide (e.stop > acc)) = true
      · rw [if_pos hc]
        exact (det_end_aux_ge_acc is e.stop (fun x hx => hb x (by simp [hx]))
          (Nat.ne_of_lt (hb e (by simp)))).1
      · rw [if_neg hc]
        have h1 : acc ≠ max_pos := by
          intro h0; exact hc (by simp [h0])
        have h2 : ¬(e.stop > acc) := by
          intro h0; exact hc (by simp [h0])
        exact le_trans (Nat.le_of_not_lt h2)
          (det_end_aux_ge_acc is acc (fun x hx => hb x (by simp [hx])) h1).1
    · exact ih _ (fun x hx => hb x (by simp [hx])) e hmem

theorem det_end_aux_spec :
    ∀ (l : List emit) (acc : Nat),
      det_end_aux acc l = acc ∨ ∃ x ∈ l, det_end_aux acc l = x.stop := by
  intro l
  induction l with
  | nil => intro acc; exact Or.inl rfl
  | cons i is ih =>
    intro acc
    rw [det_end_aux_cons]
    by_cases hc : (acc == max_pos || decide (i.stop > acc)) = true
    · rw [if_pos hc]
      rcases ih i.stop with h | ⟨x, hx, h⟩
      · exact Or.inr ⟨i, by simp, h⟩
      · exact Or.inr ⟨x, by simp [hx], h⟩
    · rw [if_neg hc]
      rcases ih acc with h | ⟨x, hx, h⟩
      · exact Or.inl h
      · exact Or.inr ⟨x, by simp [hx], h⟩

theorem sane_start_lt (l : List emit) (hs : sane l) : ∀ e ∈ l, e.start < max_pos := by
  intro e he
  have h := hs e he
  calc e.start ≤ e.stop := h.1
    _ ≤ 2 ^ 62 := h.2
    _ < max_pos := by unfold max_pos; omega

theorem sane_stop_lt (l : List emit) (hs : sane l) : ∀ e ∈ l, e.stop < max_pos := by
  intro e he
  have h := hs e he
  calc e.stop ≤ 2 ^ 62 := h.2
    _ < max_pos := by unfold max_pos; omega

/-- On a sane nonempty collection the median lies between some start and
some end position. -/
theorem median_bounds (l : List emit) (hne : l ≠ []) (hs : sane l) :
    (∃ x ∈ l, x.start ≤ determine_median l) ∧ (∃ x ∈ l, determine_median l ≤ x.stop) := by
  obtain ⟨i, is, rfl⟩ := List.exists_cons_of_ne_nil hne
  have hslt := sane_start_lt _ hs
  have helt := sane_stop_lt _ hs
  have hsub : ∀ e ∈ is, e ∈ i :: is := fun e he => by simp [he]
  have hds1 : det_start_aux max_pos (i :: is) = det_start_aux i.start is := by
    rw [det_start_aux_cons]; simp
  have hde1 : det_end_aux max_pos (i :: is) = det_end_aux i.stop is := by
    rw [det_end_aux_cons]; simp
  have hds_ub : det_start_aux max_pos (i :: is) ≤ 2 ^ 62 := by
    rw [hds1]
    exact det_start_aux_ub is i.start (2 ^ 62)
      (fun e he => le_trans (hs e (hsub e he)).1 (hs e (hsub e he)).2)
      (le_trans (hs i (by simp)).1 (hs i (by simp)).2)
  have hde_ub : det_end_aux max_pos (i :: is) ≤ 2 ^ 62 := by
    rw [hde1]
    exact det_end_aux_ub is i.stop (2 ^ 62) (fun e he => (hs e (hsub e he)).2) (hs i (by simp)).2
  have hmed : determine_median (i :: is) =
      (det_start_aux max_pos (i :: is) + det_end_aux max_pos (i :: is)) / 2 := by
    unfold determine_median
    congr 1
    exact Nat.mod_eq_of_lt (by omega)
  have hds_lb : ∀ e ∈ i :: is, det_start_aux max_pos (i :: is) ≤ e.start :=
    det_start_aux_lb (i :: is) max_pos hslt
  have hde_ge : ∀ e ∈ i :: is, e.stop ≤ det_end_aux max_pos (i :: is) :=
    det_end_aux_ge (i :: is) max_pos helt
  have hdsde : det_start_aux max_pos (i :: is) ≤ det_end_aux max_pos (i :: is) :=
    le_trans (hds_lb i (by simp)) (le_trans (hs i (by simp)).1 (hde_ge i (by simp)))
  have hds_mem : ∃ x ∈ i :: is, det_start_aux max_pos (i :: is) = x.start := by
    rw [hds1]
    rcases det_start_aux_spec is i.start with h | ⟨x, hx, h⟩
    · exact ⟨i, by simp, h⟩
    · exact ⟨x, by simp [hx], h⟩
  have hde_mem : ∃ x ∈ i :: is, det_end_aux max_pos (i :: is) = x.stop := by
    rw [hde1]
    rcases det_end_aux_spec is i.stop with h | ⟨x, hx, h⟩
    · exact ⟨i, by simp, h⟩
    · exact ⟨x, by simp [hx], h⟩
  constructor
  · obtain ⟨x, hx, hxe⟩ := hds_mem
    refine ⟨x, hx, ?_⟩
    rw [← hxe, hmed]
    rw [Nat.le_div_iff_mul_le (by omega)]
    omega
  · obtain ⟨x, hx, hxe⟩ := hde_mem
    refine ⟨x, hx, ?_⟩
    rw [hmed, ← hxe]
    have h1 : det_start_aux max_pos (i :: is) + det_end_aux max_pos (i :: is) ≤
        det_end_aux max_pos (i :: is) + det_end_aux max_pos (i :: is) := by omega
    calc (det_start_aux max_pos (i :: is) + det_end_aux max_pos (i :: is)) / 2
        ≤ (det_end_aux max_pos (i :: is) + det_end_aux max_pos (i :: is)) / 2 :=
          Nat.div_le_div_right h1
      _ = det_end_aux max_pos (i :: is) := by omega

theorem build_node_is_some :
    ∀ (fuel : Nat) (l : List emit), sane l → l.length < fuel →
      (build_node fuel l).isSome = true := by
  intro fuel
  induction fuel with
  | zero => intro l _ h; omega
  | succ f ih =>
    intro l hs hlen
    show (build_node (f + 1) l).isSome = true
    unfold build_node
    have hchild : ∀ (p : emit → Bool), (∃ x ∈ l, p x = false) →
        ((if (l.filter p).isEmpty then some itree.nil
          else build_node f (l.filter p)).isSome = true) := by
      intro p hex
      by_cases hemp : (l.filter p).isEmpty
      · rw [if_pos hemp]; rfl
      · rw [if_neg hemp]
        apply ih
        · intro e he; exact hs e (List.mem_of_mem_filter he)
        · obtain ⟨x, hx, hpx⟩ := hex
          have hlt : (l.filter p).length < l.length := by
            rw [List.length_filter_lt_length_iff_exists]
            exact ⟨x, hx, by simp [hpx]⟩
          omega
    by_cases hnil : l = []
    · subst hnil
      simp
    · obtain ⟨hlo, hhi⟩ := median_bounds l hnil hs
      obtain ⟨xl, hxl, hxl2⟩ := hhi
      obtain ⟨xr, hxr, hxr2⟩ := hlo
      have hL := hchild (fun i => decide (i.stop < determine_median l))
        ⟨xl, hxl, by simp; omega⟩
      have hR := hchild
        (fun i => !(decide (i.stop < determine_median l)) && decide (determine_median l < i.start))
        ⟨xr, hxr, by simp; omega⟩
      obtain ⟨lt', hlt⟩ := Option.isSome_iff_exists.mp hL
      obtain ⟨rt', hrt⟩ := Option.isSome_iff_exists.mp hR
      simp only [hlt, hrt]
      rfl

theorem build_node_succ_elim {f : Nat} {l : List emit} {t : itree}
    (h : build_node (f + 1) l = some t) :
    ∃ lt' rt',
      (if (l.filter (fun i => decide (i.stop < determine_median l))).isEmpty then some itree.nil
        else build_node f (l.filter (fun i => decide (i.stop < determine_median l)))) = some lt' ∧
      (if (l.filter (fun i => !(decide (i.stop < determine_median l)) &&
            decide (determine_median l < i.start))).isEmpty then some itree.nil
        else build_node f (l.filter (fun i => !(decide (i.stop < determine_median l)) &&
            decide (determine_median l < i.start)))) = some rt' ∧
      t = itree.node (determine_median l) lt' rt'
            (l.filter (fun i => !(decide (i.stop < determine_median l)) &&
              !(decide (determine_median l < i.start)))) := by
  unfold build_node at h
  dsimp only at h
  split at h
  · next lt' rt' hL hR =>
    exact ⟨lt', rt', hL, hR, (Option.some.inj h).symm⟩
  · exact Option.noConfusion h

theorem child_cases {f : Nat} {sub : List emit} {c : itree}
    (h : (if sub.isEmpty then some itree.nil else build_node f sub) = some c) :
    (sub = [] ∧ c = itree.nil) ∨ (sub ≠ [] ∧ build_node f sub = some c) := by
  by_cases he : sub.isEmpty
  · rw [if_pos he] at h
    exact Or.inl ⟨List.isEmpty_iff.mp he, (Option.some.inj h).symm⟩
  · rw [if_neg he] at h
    exact Or.inr ⟨fun h0 => he (by simp [h0]), h⟩

/-- Characterisation of node::find_overlaps: on a tree built from a sane
collection, the reported intervals are exactly the stored intervals that
differ from the query and overlap it. -/
theorem find_overlaps_mem :
    ∀ (fuel : Nat) (l : List emit) (t : itree), build_node fuel l = some t →
      (∀ e ∈ l, e.start ≤ e.stop) →
      ∀ (q : emit), q.start ≤ q.stop →
      ∀ (j : emit), j ∈ find_overlaps t q ↔
        (j ∈ l ∧ interval_eq j q = false ∧ j.start ≤ q.stop ∧ q.start ≤ j.stop) := by
  intro fuel
  induction fuel with
  | zero => intro l t h; exact absurd h (by simp [build_node])
  | succ f ih =>
    intro l t h hsane q hq j
    obtain ⟨lt', rt', hL, hR, rfl⟩ := build_node_succ_elim h
    have hsub : ∀ (p : emit → Bool), ∀ e ∈ l.filter p, e.start ≤ e.stop :=
      fun p e he => hsane e (List.mem_of_mem_filter he)
    have hleft : ∀ j, j ∈ find_overlaps lt' q ↔
        (j ∈ l.filter (fun i => decide (i.stop < determine_median l)) ∧
         interval_eq j q = false ∧ j.start ≤ q.stop ∧ q.start ≤ j.stop) := by
      intro j
      rcases child_cases hL with ⟨hnil, rfl⟩ | ⟨_, hb⟩
      · rw [hnil]; simp [find_overlaps]
      · exact ih _ _ hb (hsub _) q hq j
    have hright : ∀ j, j ∈ find_overlaps rt' q ↔
        (j ∈ l.filter (fun i => !(decide (i.stop < determine_median l)) &&
            decide (determine_median l < i.start)) ∧
         interval_eq j q = false ∧ j.start ≤ q.stop ∧ q.start ≤ j.stop) := by
      intro j
      rcases child_cases hR with ⟨hnil, rfl⟩ | ⟨_, hb⟩
      · rw [hnil]; simp [find_overlaps]
      · exact ih _ _ hb (hsub _) q hq j
    by_cases h1 : determine_median l < q.start
    · rw [show find_overlaps (itree.node (determine_median l) lt' rt'
            (l.filter (fun i => !(decide (i.stop < determine_median l)) &&
              !(decide (determine_median l < i.start))))) q =
          add_to_overlaps q (add_to_overlaps q [] (find_overlaps rt' q))
            (check_overlaps_right (l.filter (fun i => !(decide (i.stop < determine_median l)) &&
              !(decide (determine_median l < i.start)))) q)
        from by simp [find_overlaps, h1]]
      simp only [add_to_overlaps, check_overlaps_right, List.nil_append, List.mem_append,
        List.mem_filter, Bool.not_eq_true', Bool.and_eq_true, decide_eq_true_eq,
        Bool.not_eq_true]
      constructor
      · rintro (⟨hf, hne⟩ | ⟨⟨⟨hjl, hm1, hm2⟩, hcr⟩, hne⟩)
        · obtain ⟨hmem, hne2, hov⟩ := (hright j).mp hf
          exact ⟨List.mem_of_mem_filter hmem, hne2, hov⟩
        · have hm2' : ¬(determine_median l < j.start) := by simpa using hm2
          exact ⟨hjl, hne, by omega, hcr⟩
      · rintro ⟨hjl, hne, hov1, hov2⟩
        by_cases hc1 : j.stop < determine_median l
        · omega
        · by_cases hc2 : determine_median l < j.start
          · refine Or.inl ⟨(hright j).mpr ⟨?_, hne, hov1, hov2⟩, hne⟩
            exact List.mem_filter.mpr ⟨hjl, by simp [hc1, hc2]⟩
          · exact Or.inr ⟨⟨⟨hjl, by simpa using hc1, by simpa using hc2⟩, hov2⟩, hne⟩
    · by_cases h2 : q.stop < determine_median l
      · rw [show find_overlaps (itree.node (determine_median l) lt' rt'
              (l.filter (fun i => !(decide (i.stop < determine_median l)) &&
                !(decide (determine_median l < i.start))))) q =
            add_to_overlaps q (add_to_overlaps q [] (find_overlaps lt' q))
              (check_overlaps_left (l.filter (fun i => !(decide (i.stop < determine_median l)) &&
                !(decide (determine_median l < i.start)))) q)
          from by simp [find_overlaps, h1, h2]]
        simp only [add_to_overlaps, check_overlaps_left, List.nil_append, List.mem_append,
          List.mem_filter, Bool.not_eq_true', Bool.and_eq_true, decide_eq_true_eq,
          Bool.not_eq_true]
        constructor
        · rintro (⟨hf, hne⟩ | ⟨⟨⟨hjl, hm1, hm2⟩, hcl⟩, hne⟩)
          · obtain ⟨hmem, hne2, hov⟩ := (hleft j).mp hf
            exact ⟨List.mem_of_mem_filter hmem, hne2, hov⟩
          · have hm1' : ¬(j.stop < determine_median l) := by simpa using hm1
            exact ⟨hjl, hne, hcl, by omega⟩
        · rintro ⟨hjl, hne, hov1, hov2⟩
          by_cases hc1 : j.stop < determine_median l
          · refine Or.inl ⟨(hleft j).mpr ⟨?_, hne, hov1, hov2⟩, hne⟩
            exact List.mem_filter.mpr ⟨hjl, by simp [hc1]⟩
          · by_cases hc2 : determine_median l < j.start
            · omega
            · exact Or.inr ⟨⟨⟨hjl, by simpa using hc1, by simpa using hc2⟩, hov1⟩, hne⟩
      · rw [show find_overlaps (itree.node (determine_median l) lt' rt'
              (l.filter (fun i => !(decide (i.stop < determine_median l)) &&
                !(decide (determine_median l < i.start))))) q =
            add_to_overlaps q
              (add_to_overlaps q
                (add_to_overlaps q []
                  (l.filter (fun i => !(decide (i.stop < determine_median l)) &&
                    !(decide (determine_median l < i.start)))))
                (find_overlaps lt' q))
              (find_overlaps rt' q)
          from by simp [find_overlaps, h1, h2]]
        simp only [add_to_overlaps, List.nil_append, List.mem_append, List.mem_filter,
          Bool.not_eq_true', Bool.and_eq_true, decide_eq_true_eq, Bool.not_eq_true]
        constructor
        · rintro ((⟨⟨hjl, hm1, hm2⟩, hne⟩ | ⟨hf, hne⟩) | ⟨hf, hne⟩)
          · have hm1' : ¬(j.stop < determine_median l) := by simpa using hm1
            have hm2' : ¬(determine_median l < j.start) := by simpa using hm2
            exact ⟨hjl, hne, by omega, by omega⟩
          · obtain ⟨hmem, hne2, hov⟩ := (hleft j).mp hf
            exact ⟨List.mem_of_mem_filter hmem, hne2, hov⟩
          · obtain ⟨hmem, hne2, hov⟩ := (hright j).mp hf
            exact ⟨List.mem_of_mem_filter hmem, hne2, hov⟩
        · rintro ⟨hjl, hne, hov1, hov2⟩
          by_cases hc1 : j.stop < determine_median l
          · refine Or.inl (Or.inr ⟨(hleft j).mpr ⟨?_, hne, hov1, hov2⟩, hne⟩)
            exact List.mem_filter.mpr ⟨hjl, by simp [hc1]⟩
          · by_cases hc2 : determine_median l < j.start
            · refine Or.inr ⟨(hright j).mpr ⟨?_, hne, hov1, hov2⟩, hne⟩
              exact List.mem_filter.mpr ⟨hjl, by simp [hc1, hc2]⟩
            · exact Or.inl (Or.inl ⟨⟨hjl, by simpa using hc1, by simpa using hc2⟩, hne⟩)

theorem insert_sorted_perm {α : Type} (le : α → α → Bool) (x : α) :
    ∀ (m : List α), List.Perm (insert_sorted le x m) (x :: m) := by
  intro m
  induction m with
  | nil => exact List.Perm.refl _
  | cons y ys ih =>
    unfold insert_sorted
    by_cases hle : le x y
    · rw [if_pos hle]
    · rw [if_neg hle]
      exact (ih.cons y).trans (List.Perm.swap x y ys)

theorem sort_by_perm {α : Type} (le : α → α → Bool) :
    ∀ (l : List α), List.Perm (sort_by le l) l := by
  intro l
  induction l with
  | nil => exact List.Perm.refl _
  | cons x xs ih =>
    exact (insert_sorted_perm le x (sort_by le xs)).trans (ih.cons x)

theorem interval_eq_iff {a b : emit} :
    interval_eq a b = true ↔ (a.start = b.start ∧ a.stop = b.stop) := by
  unfold interval_eq
  simp

theorem interval_eq_self (a : emit) : interval_eq a a = true := by
  simp [interval_eq]

theorem interval_eq_comm (a b : emit) : interval_eq a b = interval_eq b a := by
  unfold interval_eq
  rw [Bool.eq_iff_iff]
  simp only [Bool.and_eq_true, beq_iff_eq]
  constructor <;> rintro ⟨h1, h2⟩ <;> exact ⟨h1.symm, h2.symm⟩

theorem pairwise_mem_eq {l : List emit} (hd : distinct_starts l) :
    ∀ {x y : emit}, x ∈ l → y ∈ l → x.start = y.start → x = y := by
  unfold distinct_starts at hd
  induction l with
  | nil => intro x y hx; cases hx
  | cons a t ih =>
    rw [List.pairwise_cons] at hd
    intro x y hx hy hst
    rcases List.mem_cons.mp hx with rfl | hx2
    · rcases List.mem_cons.mp hy with rfl | hy2
      · rfl
      · exact absurd hst (hd.1 y hy2)
    · rcases List.mem_cons.mp hy with rfl | hy2
      · exact absurd hst.symm (hd.1 x hx2)
      · exact ih hd.2 hx2 hy2 hst

theorem set_find_eq_true_iff {m : List emit} {x : emit} :
    set_find m x = true ↔ ∃ y ∈ m, y.start = x.start := by
  unfold set_find interval_lt
  simp only [List.any_eq_true, Bool.and_eq_true, Bool.not_eq_true', decide_eq_false_iff_not]
  constructor
  · rintro ⟨y, hy, h1, h2⟩
    exact ⟨y, hy, by omega⟩
  · rintro ⟨y, hy, h⟩
    exact ⟨y, hy, by omega, by omega⟩

theorem mem_insert_sorted {α : Type} (le : α → α → Bool) (x : α) :
    ∀ (m : List α) (z : α), z ∈ insert_sorted le x m ↔ (z = x ∨ z ∈ m) := by
  intro m
  induction m with
  | nil => intro z; simp [insert_sorted]
  | cons y ys ih =>
    intro z
    unfold insert_sorted
    by_cases hle : le x y
    · rw [if_pos hle]
      simp [or_comm, or_assoc, or_left_comm]
    · rw [if_neg hle]
      simp only [List.mem_cons, ih]
      tauto

theorem set_insert_mem {l m : List emit} {x : emit} (hd : distinct_starts l)
    (hm : ∀ y ∈ m, y ∈ l) (hx : x ∈ l) :
    (∀ z, z ∈ set_insert m x ↔ (z = x ∨ z ∈ m)) ∧ (∀ y ∈ set_insert m x, y ∈ l) := by
  unfold set_insert
  by_cases hf : set_find m x = true
  · rw [if_pos hf]
    obtain ⟨y, hy, hst⟩ := set_find_eq_true_iff.mp hf
    have hyx : y = x := pairwise_mem_eq hd (hm y hy) hx hst
    subst hyx
    constructor
    · intro z
      constructor
      · exact Or.inr
      · rintro (rfl | hz)
        · exact hy
        · exact hz
    · exact hm
  · rw [if_neg hf]
    refine ⟨mem_insert_sorted _ x m, ?_⟩
    intro z hz
    rcases (mem_insert_sorted _ x m z).mp hz with rfl | hz2
    · exact hx
    · exact hm z hz2

theorem fold_set_insert_mem {l : List emit} (hd : distinct_starts l) :
    ∀ (os m : List emit), (∀ y ∈ os, y ∈ l) → (∀ y ∈ m, y ∈ l) →
      (∀ z, z ∈ os.foldl set_insert m ↔ (z ∈ m ∨ z ∈ os)) ∧
      (∀ y ∈ os.foldl set_insert m, y ∈ l) := by
  intro os
  induction os with
  | nil => intro m _ hm; exact ⟨fun z => by simp, hm⟩
  | cons o os ih =>
    intro m ho hm
    obtain ⟨hins_iff, hins_sub⟩ := set_insert_mem hd hm (ho o (by simp))
    obtain ⟨hfold_iff, hfold_sub⟩ := ih (set_insert m o) (fun y hy => ho y (by simp [hy])) hins_sub
    refine ⟨?_, hfold_sub⟩
    intro z
    rw [show (o :: os).foldl set_insert m = os.foldl set_insert (set_insert m o) from rfl,
      hfold_iff z]
    rw [hins_iff z]
    simp only [List.mem_cons]
    tauto

theorem mem_spec_overlaps {l : List emit} {i z : emit} :
    z ∈ spec_overlaps l i ↔
      (z ∈ l ∧ interval_eq z i = false ∧ z.start ≤ i.stop ∧ i.start ≤ z.stop) := by
  unfold spec_overlaps
  simp only [List.mem_filter, Bool.and_eq_true, Bool.not_eq_true', decide_eq_true_eq]
  tauto

theorem mark_loop_cons (t : itree) (i : emit) (is m : List emit) :
    mark_loop t (i :: is) m = if set_find m i then mark_loop t is m
      else mark_loop t is ((find_overlaps t i).foldl set_insert m) := rfl

theorem spec_mark_loop_cons (l : List emit) (i : emit) (is m : List emit) :
    spec_mark_loop l (i :: is) m =
      if m.any (fun y => interval_eq y i) then spec_mark_loop l is m
      else spec_mark_loop l is (m ++ spec_overlaps l i) := rfl

theorem mark_loop_spec {l : List emit} {t : itree} (hd : distinct_starts l)
    (hchar : ∀ q ∈ l, ∀ j, j ∈ find_overlaps t q ↔
      (j ∈ l ∧ interval_eq j q = false ∧ j.start ≤ q.stop ∧ q.start ≤ j.stop)) :
    ∀ (s mc ms : List emit), (∀ y ∈ s, y ∈ l) → (∀ y ∈ mc, y ∈ l) → (∀ y ∈ ms, y ∈ l) →
      (∀ z, z ∈ mc ↔ z ∈ ms) →
      (∀ z, z ∈ mark_loop t s mc ↔ z ∈ spec_mark_loop l s ms) ∧
      (∀ y ∈ mark_loop t s mc, y ∈ l) := by
  intro s
  induction s with
  | nil => intro mc ms _ hmc _ heq; exact ⟨heq, hmc⟩
  | cons i is ih =>
    intro mc ms hs hmc hms heq
    have hil : i ∈ l := hs i (by simp)
    have hs' : ∀ y ∈ is, y ∈ l := fun y hy => hs y (by simp [hy])
    have hskip : set_find mc i = true ↔ (ms.any (fun y => interval_eq y i)) = true := by
      rw [set_find_eq_true_iff]
      simp only [List.any_eq_true]
      constructor
      · rintro ⟨y, hy, hst⟩
        have hyi : y = i := pairwise_mem_eq hd (hmc y hy) hil hst
        subst hyi
        exact ⟨y, (heq y).mp hy, interval_eq_self y⟩
      · rintro ⟨y, hy, hiv⟩
        exact ⟨y, (heq y).mpr hy, (interval_eq_iff.mp hiv).1⟩
    rw [mark_loop_cons, spec_mark_loop_cons]
    by_cases hf : set_find mc i = true
    · rw [if_pos hf, if_pos (hskip.mp hf)]
      exact ih mc ms hs' hmc hms heq
    · rw [if_neg hf, if_neg (fun hc => hf (hskip.mpr hc))]
      have hov_sub : ∀ y ∈ find_overlaps t i, y ∈ l := fun y hy => ((hchar i hil y).mp hy).1
      obtain ⟨hfold_iff, hfold_sub⟩ := fold_set_insert_mem hd (find_overlaps t i) mc hov_sub hmc
      have happ_sub : ∀ y ∈ ms ++ spec_overlaps l i, y ∈ l := by
        intro y hy
        rcases List.mem_append.mp hy with hy1 | hy2
        · exact hms y hy1
        · exact (mem_spec_overlaps.mp hy2).1
      refine ih _ _ hs' hfold_sub happ_sub ?_
      intro z
      rw [hfold_iff z, List.mem_append, mem_spec_overlaps, heq z, hchar i hil z]

theorem erase_first_iv_eq_filter :
    ∀ {s : List emit}, s.Pairwise (fun a b => a.start ≠ b.start) → ∀ (x : emit),
      erase_first_iv x s = s.filter (fun y => !(interval_eq y x)) := by
  intro s
  induction s with
  | nil => intro _ x; rfl
  | cons y ys ih =>
    intro hp x
    rw [List.pairwise_cons] at hp
    show (if interval_eq y x then ys else y :: erase_first_iv x ys) = _
    by_cases hiv : interval_eq y x = true
    · rw [if_pos hiv]
      rw [List.filter_cons_of_neg (by simp [hiv])]
      symm
      apply List.filter_eq_self.mpr
      intro z hz
      simp only [Bool.not_eq_true']
      by_contra hzt
      have hziv : interval_eq z x = true := by
        cases hzx : interval_eq z x
        · exact absurd hzx hzt
        · rfl
      have h1 := interval_eq_iff.mp hiv
      have h2 := interval_eq_iff.mp hziv
      exact hp.1 z hz (by omega)
    · rw [if_neg hiv]
      rw [List.filter_cons_of_pos (by simp [hiv])]
      rw [ih hp.2 x]

theorem fold_erase_eq_filter :
    ∀ (M s : List emit), s.Pairwise (fun a b => a.start ≠ b.start) →
      M.foldl (fun r i => erase_first_iv i r) s =
        s.filter (fun y => !(M.any (fun mm => interval_eq y mm))) := by
  intro M
  induction M with
  | nil =>
    intro s _
    symm
    apply List.filter_eq_self.mpr
    intro z _
    simp
  | cons m M ih =>
    intro s hp
    show M.foldl (fun r i => erase_first_iv i r) (erase_first_iv m s) = _
    rw [erase_first_iv_eq_filter hp m]
    rw [ih _ (hp.filter _)]
    rw [List.filter_filter]
    apply List.filter_congr
    intro y _
    simp only [List.any_cons, Bool.not_or, Bool.and_comm]

/-- On a sane collection with pairwise-distinct start positions, the
source remove_overlaps coincides with the marking policy stated by the
claim. -/
theorem remove_overlaps_eq_spec {l : List emit} (hs : sane l) (hd : distinct_starts l)
    {t : itree} (ht : build_node (l.length + 1) l = some t) :
    remove_overlaps t l = spec_remove_overlaps l := by
  unfold remove_overlaps spec_remove_overlaps
  have hperm : List.Perm (sort_with_lt cmp_size_desc l) l := by
    unfold sort_with_lt
    exact sort_by_perm _ l
  have hsmem : ∀ y ∈ sort_with_lt cmp_size_desc l, y ∈ l := fun y hy => hperm.mem_iff.mp hy
  have hpair_s : (sort_with_lt cmp_size_desc l).Pairwise (fun a b => a.start ≠ b.start) :=
    (hperm.pairwise_iff (fun h => Ne.symm h)).mpr hd
  have hchar : ∀ q ∈ l, ∀ j, j ∈ find_overlaps t q ↔
      (j ∈ l ∧ interval_eq j q = false ∧ j.start ≤ q.stop ∧ q.start ≤ j.stop) :=
    fun q hq => find_overlaps_mem _ l t ht (fun e he => (hs e he).1) q (hs q hq).1
  obtain ⟨hmm_iff, hmm_sub⟩ := mark_loop_spec hd hchar (sort_with_lt cmp_size_desc l) [] []
    hsmem (by simp) (by simp) (fun z => Iff.rfl)
  dsimp only
  rw [fold_erase_eq_filter _ _ hpair_s]
  congr 1
  apply List.filter_congr
  intro y _
  congr 1
  rw [Bool.eq_iff_iff]
  simp only [List.any_eq_true]
  constructor
  · rintro ⟨mm, hmm, hiv⟩
    exact ⟨mm, (hmm_iff mm).mp hmm, by rw [interval_eq_comm]; exact hiv⟩
  · rintro ⟨yy, hyy, hiv⟩
    exact ⟨yy, (hmm_iff yy).mpr hyy, by rw [interval_eq_comm]; exact hiv⟩

theorem assign_indices_loop_ub (fuel : Nat) (st : trie_state) (p : List Char)
    (rest : List (List Char)) (i : Nat) :
    assign_indices_loop fuel st (p :: rest) i = none := by
  cases fuel with
  | zero => rfl
  | succ f => rfl

theorem assign_indices_ub (st : trie_state) : assign_indices st = none := by
  unfold assign_indices
  rw [assign_indices_loop_ub]
  rfl

theorem check_postprocess_ub {st : trie_state} (h : st.postprocessed = false) :
    check_postprocess st = none := by
  unfold check_postprocess
  rw [h, assign_indices_ub]
  rfl

theorem parse_text_ub (st : trie_state) (text : List Char)
    (h : st.postprocessed = false) : parse_text st text = none := by
  unfold parse_text
  rw [check_postprocess_ub h]

/-- C3 as amended: on every sane interval collection with
pairwise-distinct start positions (where the start-keyed marking set of
the source cannot drop an entry; the counterexample shows the claim fails
when starts collide) remove_overlaps processes the intervals sorted
descending by size with ties broken by descending start, greedily marks
every overlap of each not-yet-marked interval, never the interval itself,
drops exactly the marked intervals and returns the remainder sorted
ascending by start — i.e. it agrees with the claimed marking policy; the
ushers-scan half of the claim, however, names no behaviour of the source
program: with remove_overlaps enabled the scan compiles lazily and
reaches the undefined behaviour of the return-less transition_map
accessors, so it yields no emit at all (the companion
fixed_ushers_remove_overlaps_scan shows the single emit hers at [2,5]
once the missing returns are restored). -/
theorem c3_amended_remove_overlaps :
    (∀ l, sane l → distinct_starts l →
      remove_overlaps_full l = some (spec_remove_overlaps l)) ∧
    parse_text (build_trie_with { default_config with allow_overlaps := false }
        ushers_keywords) ushers_text = none := by
  constructor
  · intro l hs hd
    have hb := build_node_is_some (l.length + 1) l hs (by omega)
    obtain ⟨t, ht⟩ := Option.isSome_iff_exists.mp hb
    unfold remove_overlaps_full
    rw [ht, Option.map_some']
    rw [remove_overlaps_eq_spec hs hd ht]
  · exact parse_text_ub _ _ (by decide)

/-- Companion over the repaired transition map (compare claim C10): with
the missing returns restored, the remove_overlaps-enabled ushers scan
yields exactly one emit, hers at [2,5], the interval selected by the
size tie-break policy. -/
theorem fixed_ushers_remove_overlaps_scan :
    (parse_text_fixed (build_trie_with { default_config with allow_overlaps := false }
        ushers_keywords) ushers_text).map (fun r => r.2) =
      some [⟨2, 5, ['h', 'e', 'r', 's'], 2⟩] := by
  decide

/-- Witness for c3_amended_remove_overlaps on a concrete sane collection
with distinct starts. -/
theorem c3_amended_remove_overlaps_witness :
    remove_overlaps_full [mkiv 1 3, mkiv 2 5] =
      some (spec_remove_overlaps [mkiv 1 3, mkiv 2 5]) ∧
    remove_overlaps_full [mkiv 1 3, mkiv 2 5] = some [mkiv 2 5] := by
  have h := c3_amended_remove_overlaps.1 [mkiv 1 3, mkiv 2 5]
    (by intro e he; fin_cases he <;> constructor <;> norm_num [mkiv])
    (by unfold distinct_starts; simp [mkiv])
  exact ⟨h, h.trans (by decide)⟩

theorem append_singleton_inj {p q : List Char} {c d : Char}
    (h : p ++ [c] = q ++ [d]) : p = q ∧ c = d := by
  have h1 : p = q := by
    have hl : p.length = q.length := by
      have := congrArg List.length h
      simpa using this
    have h2 := congrArg (List.take p.length) h
    rwa [List.take_left, hl, List.take_left] at h2
  subst h1
  refine ⟨rfl, ?_⟩
  have h2 := congrArg (List.drop p.length) h
  rw [List.drop_left, List.drop_left] at h2
  exact List.singleton_inj.mp h2

theorem suffix_append_single {s w : List Char} (c : Char) (h : s <:+ w) :
    s ++ [c] <:+ w ++ [c] := by
  obtain ⟨t, rfl⟩ := h
  exact ⟨t, (List.append_assoc t s [c]).symm⟩

theorem suffix_snoc_decomp {s w : List Char} {c : Char}
    (h : s <:+ w ++ [c]) (hne : s ≠ []) : ∃ s', s = s' ++ [c] ∧ s' <:+ w := by
  induction s using List.reverseRecOn with
  | nil => exact absurd rfl hne
  | append_singleton s' c' _ =>
    obtain ⟨t, ht⟩ := h
    rw [← List.append_assoc] at ht
    obtain ⟨h1, h2⟩ := append_singleton_inj ht
    subst h2
    exact ⟨s', rfl, ⟨t, h1⟩⟩

theorem drop_one_suffix (p : List Char) : p.drop 1 <:+ p := by
  cases p with
  | nil => exact List.nil_suffix
  | cons c t => exact ⟨[c], rfl⟩

theorem strict_suffix_drop_one {s p : List Char}
    (h : s <:+ p) (hlen : s.length < p.length) : s <:+ p.drop 1 := by
  apply List.suffix_of_suffix_length_le h (drop_one_suffix p)
  simp
  omega

theorem suffix_ne_of_length_lt {s p : List Char}
    (h : s.length < p.length) : s ≠ p := by
  intro h0; subst h0; omega

theorem strict_suffix_length_lt {s p : List Char}
    (h : s <:+ p) (hne : s ≠ p) : s.length < p.length := by
  rcases Nat.lt_or_ge s.length p.length with hlt | hge
  · exact hlt
  · exact absurd (h.eq_of_length (le_antisymm h.length_le hge)) hne

theorem longest_suffix_in_cons (N : List (List Char)) (c : Char) (t : List Char) :
    longest_suffix_in N (c :: t) =
      if (c :: t) ∈ N then c :: t else longest_suffix_in N t := rfl

theorem longest_suffix_in_spec (N : List (List Char)) (hroot : [] ∈ N) :
    ∀ q, longest_suffix_in N q ∈ N ∧ longest_suffix_in N q <:+ q ∧
      ∀ s, s <:+ q → s ∈ N → s.length ≤ (longest_suffix_in N q).length := by
  intro q
  induction q with
  | nil =>
    refine ⟨hroot, List.nil_suffix, ?_⟩
    intro s hs _
    have h0 : s = [] := List.suffix_nil.mp hs
    subst h0
    simp
  | cons c t ih =>
    rw [longest_suffix_in_cons]
    by_cases hmem : (c :: t) ∈ N
    · rw [if_pos hmem]
      refine ⟨hmem, List.suffix_refl _, ?_⟩
      intro s hs _
      exact hs.length_le
    · rw [if_neg hmem]
      refine ⟨ih.1, ih.2.1.trans (List.suffix_cons c t), ?_⟩
      intro s hs hsN
      rcases List.suffix_cons_iff.mp hs with rfl | hs2
      · exact absurd hsN hmem
      · exact ih.2.2 s hs2 hsN

theorem longest_suffix_in_eq (N : List (List Char)) (hroot : [] ∈ N) {q z : List Char}
    (hz : z ∈ N) (hzq : z <:+ q)
    (hmax : ∀ s, s <:+ q → s ∈ N → s.length ≤ z.length) :
    longest_suffix_in N q = z := by
  obtain ⟨h1, h2, h3⟩ := longest_suffix_in_spec N hroot q
  have hle1 : (longest_suffix_in N q).length ≤ z.length := hmax _ h2 h1
  have hle2 : z.length ≤ (longest_suffix_in N q).length := h3 z hzq hz
  have hsub : longest_suffix_in N q <:+ z :=
    List.suffix_of_suffix_length_le h2 hzq hle1
  exact hsub.eq_of_length (le_antisymm hle1 hle2)

theorem lps_spec (N : List (List Char)) (hroot : [] ∈ N) {p : List Char} (hp : p ≠ []) :
    lps N p ∈ N ∧ lps N p <:+ p ∧ lps N p ≠ p ∧
      ∀ s, s <:+ p → s ≠ p → s ∈ N → s.length ≤ (lps N p).length := by
  unfold lps
  obtain ⟨h1, h2, h3⟩ := longest_suffix_in_spec N hroot (p.drop 1)
  have hdlen : (p.drop 1).length < p.length := by
    cases p with
    | nil => exact absurd rfl hp
    | cons c t => simp
  refine ⟨h1, h2.trans (drop_one_suffix p), ?_, ?_⟩
  · apply suffix_ne_of_length_lt
    have hx := h2.length_le
    omega
  · intro s hs hsne hsN
    exact h3 s (strict_suffix_drop_one hs (strict_suffix_length_lt hs hsne)) hsN

theorem lps_eq (N : List (List Char)) (hroot : [] ∈ N) {p z : List Char} (hp : p ≠ [])
    (hz : z ∈ N) (hzp : z <:+ p) (hzne : z ≠ p)
    (hmax : ∀ s, s <:+ p → s ≠ p → s ∈ N → s.length ≤ z.length) :
    lps N p = z := by
  unfold lps
  apply longest_suffix_in_eq N hroot hz
  · exact strict_suffix_drop_one hzp (strict_suffix_length_lt hzp hzne)
  · intro s hs hsN
    have hdlen : (p.drop 1).length < p.length := by
      cases p with
      | nil => exact absurd rfl hp
      | cons c t => simp
    have hsp : s <:+ p := hs.trans (drop_one_suffix p)
    have hsne : s ≠ p := suffix_ne_of_length_lt (by have := hs.length_le; omega)
    exact hmax s hsp hsne hsN

theorem lps_singleton (N : List (List Char)) (c : Char) : lps N [c] = [] := rfl

theorem add_state_nodes (st : trie_state) (p : List Char) (c : Char) :
    ((p ++ [c] ∈ st.nodes ∧ (add_state st p c).1.nodes = st.nodes) ∨
     (p ++ [c] ∉ st.nodes ∧ (add_state st p c).1.nodes = st.nodes ++ [p ++ [c]])) := by
  unfold add_state
  by_cases hmem : p ++ [c] ∈ st.nodes
  · rw [if_pos hmem]; exact Or.inl ⟨hmem, rfl⟩
  · rw [if_neg hmem]; exact Or.inr ⟨hmem, rfl⟩

theorem add_state_wf {st : trie_state} {p : List Char} (c : Char)
    (hw : trie_wf st) (hp : p ∈ st.nodes) :
    trie_wf (add_state st p c).1 ∧ (∀ q ∈ st.nodes, q ∈ (add_state st p c).1.nodes) ∧
      (add_state st p c).2 ∈ (add_state st p c).1.nodes := by
  obtain ⟨hroot, hnd, hcl⟩ := hw
  unfold trie_wf nodes_closed
  rw [add_state_snd]
  rcases add_state_nodes st p c with ⟨hmem, heq⟩ | ⟨hmem, heq⟩
  · rw [heq]
    exact ⟨⟨hroot, hnd, hcl⟩, fun q hq => hq, hmem⟩
  · rw [heq]
    refine ⟨⟨by simp [hroot], ?_, ?_⟩, fun q hq => by simp [hq], by simp⟩
    · rw [List.nodup_append]
      exact ⟨hnd, List.nodup_singleton _, by
        intro a ha hb
        rw [List.mem_singleton] at hb
        subst hb
        exact hmem ha⟩
    · intro p' c' hp'
      rcases List.mem_append.mp hp' with h1 | h1
      · exact List.mem_append.mpr (Or.inl (hcl p' c' h1))
      · rw [List.mem_singleton] at h1
        obtain ⟨h2, _⟩ := append_singleton_inj h1
        subst h2
        exact List.mem_append.mpr (Or.inl hp)

theorem add_path_wf :
    ∀ (q : List Char) (st : trie_state) (p : List Char), trie_wf st → p ∈ st.nodes →
      trie_wf (add_path st p q).1 ∧ (∀ r ∈ st.nodes, r ∈ (add_path st p q).1.nodes) ∧
        (add_path st p q).2 ∈ (add_path st p q).1.nodes := by
  intro q
  induction q with
  | nil => intro st p hw hp; exact ⟨hw, fun r hr => hr, hp⟩
  | cons c cs ih =>
    intro st p hw hp
    obtain ⟨hw1, hsub1, hmem1⟩ := add_state_wf c hw hp
    obtain ⟨hw2, hsub2, hmem2⟩ := ih (add_state st p c).1 (add_state st p c).2 hw1 hmem1
    exact ⟨hw2, fun r hr => hsub2 r (hsub1 r hr), hmem2⟩

theorem insert_wf {st : trie_state} (k : List Char) (hw : trie_wf st) :
    trie_wf (insert st k).1 ∧ (∀ r ∈ st.nodes, r ∈ (insert st k).1.nodes) := by
  unfold insert
  by_cases hk : k = []
  · rw [if_pos hk]; exact ⟨hw, fun r hr => hr⟩
  · rw [if_neg hk]
    obtain ⟨hw1, hsub1, _⟩ := add_path_wf k st [] hw hw.1
    by_cases hacc : ((add_path st [] k).1.emits_of (add_path st [] k).2).length = 0 ∨
        (add_path st [] k).1.cfg.allow_substrings = true
    · rw [if_pos hacc]
      exact ⟨hw1, hsub1⟩
    · rw [if_neg hacc]
      exact ⟨hw1, hsub1⟩

theorem insert_pre_emits {st : trie_state} (k : List Char)
    (hw : trie_wf st)
    (hpre : ∀ p kw i, (kw, i) ∈ st.emits_of p → (kw = p ∧ kw ≠ [] ∧ p ∈ st.nodes)) :
    ∀ p kw i, (kw, i) ∈ (insert st k).1.emits_of p →
      (kw = p ∧ kw ≠ [] ∧ p ∈ (insert st k).1.nodes) := by
  intro p kw i hmem
  by_cases hk : k = []
  · subst hk
    rw [insert_empty_kw] at hmem ⊢
    obtain ⟨h1, h2, h3⟩ := hpre p kw i hmem
    exact ⟨h1, h2, h3⟩
  · obtain ⟨hw1, hsub1, hmem1⟩ := add_path_wf k st [] hw hw.1
    have hsnd : (add_path st [] k).2 = k := by simpa using add_path_snd k st []
    obtain ⟨hemits, _, hcfg2, _, _⟩ := add_path_preserves k st []
    by_cases hacc : ((add_path st [] k).1.emits_of (add_path st [] k).2).length = 0 ∨
        (add_path st [] k).1.cfg.allow_substrings = true
    · obtain ⟨_, _, h3, h4, _, _, _⟩ := insert_accept hk (by
        rw [hemits, hsnd, hcfg2] at hacc; simpa using hacc)
      by_cases hpk : p = k
      · rw [hpk, h3] at hmem
        rcases List.mem_append.mp hmem with h5 | h5
        · obtain ⟨g1, g2, g3⟩ := hpre k kw i h5
          exact ⟨by rw [hpk]; exact g1, g2, by rw [hpk]; exact (insert_wf k hw).2 k g3⟩
        · rw [List.mem_singleton] at h5
          have hkw : kw = k := congrArg Prod.fst h5
          refine ⟨by rw [hkw, hpk], by rw [hkw]; exact hk, ?_⟩
          rw [hpk]
          show k ∈ (insert st k).1.nodes
          unfold insert
          rw [if_neg hk, if_pos hacc]
          show k ∈ (add_path st [] k).1.nodes
          have hmem2 := hmem1
          rw [hsnd] at hmem2
          exact hmem2
      · rw [h4 p hpk] at hmem
        obtain ⟨g1, g2, g3⟩ := hpre p kw i hmem
        exact ⟨g1, g2, (insert_wf k hw).2 p g3⟩
    · obtain ⟨_, _, h3, _, _, _⟩ := insert_reject hk (by
        rw [hemits, hsnd, hcfg2] at hacc; simpa using hacc)
      rw [h3] at hmem
      obtain ⟨g1, g2, g3⟩ := hpre p kw i hmem
      exact ⟨g1, g2, (insert_wf k hw).2 p g3⟩

theorem insert_cfg_post (st : trie_state) (k : List Char) :
    (insert st k).1.cfg = st.cfg ∧ (insert st k).1.postprocessed = st.postprocessed ∧
      (insert st k).1.fail_of = st.fail_of := by
  unfold insert
  by_cases hk : k = []
  · rw [if_pos hk]; exact ⟨rfl, rfl, rfl⟩
  · rw [if_neg hk]
    obtain ⟨_, hf, hc, _, hp⟩ := add_path_preserves k st []
    by_cases hacc : ((add_path st [] k).1.emits_of (add_path st [] k).2).length = 0 ∨
        (add_path st [] k).1.cfg.allow_substrings = true
    · rw [if_pos hacc]; exact ⟨hc, hp, hf⟩
    · rw [if_neg hacc]; exact ⟨hc, hp, hf⟩

theorem build_trie_with_wf (c : trie_config) (kws : List (List Char)) :
    trie_wf (build_trie_with c kws) ∧
    (∀ p kw i, (kw, i) ∈ (build_trie_with c kws).emits_of p →
      (kw = p ∧ kw ≠ [] ∧ p ∈ (build_trie_with c kws).nodes)) ∧
    (build_trie_with c kws).cfg = c ∧
    (build_trie_with c kws).postprocessed = false ∧
    fail_is_none (build_trie_with c kws) := by
  unfold build_trie_with
  suffices h : ∀ (ks : List (List Char)) (st : trie_state), trie_wf st →
      (∀ p kw i, (kw, i) ∈ st.emits_of p → (kw = p ∧ kw ≠ [] ∧ p ∈ st.nodes)) →
      trie_wf (ks.foldl (fun s k => (insert s k).1) st) ∧
      (∀ p kw i, (kw, i) ∈ (ks.foldl (fun s k => (insert s k).1) st).emits_of p →
        (kw = p ∧ kw ≠ [] ∧ p ∈ (ks.foldl (fun s k => (insert s k).1) st).nodes)) ∧
      (ks.foldl (fun s k => (insert s k).1) st).cfg = st.cfg ∧
      (ks.foldl (fun s k => (insert s k).1) st).postprocessed = st.postprocessed ∧
      (fail_is_none st → fail_is_none (ks.foldl (fun s k => (insert s k).1) st)) by
    obtain ⟨h1, h2, h3, h4, h5⟩ := h kws (empty_trie c) ⟨by simp [empty_trie],
      by simp [empty_trie], by intro p c' h0; exact absurd h0 (by simp [empty_trie])⟩
      (by intro p kw i h0; simp [empty_trie] at h0)
    exact ⟨h1, h2, h3, h4, h5 (fun p => rfl)⟩
  intro ks
  induction ks with
  | nil => intro st hw hpre; exact ⟨hw, hpre, rfl, rfl, fun h => h⟩
  | cons k ks ih =>
    intro st hw hpre
    obtain ⟨hc, hp, hf⟩ := insert_cfg_post st k
    obtain ⟨h1, h2, h3, h4, h5⟩ := ih (insert st k).1 (insert_wf k hw).1
      (insert_pre_emits k hw hpre)
    refine ⟨h1, h2, h3.trans hc, h4.trans hp, ?_⟩
    intro hfn
    exact h5 (by intro p; rw [hf]; exact hfn p)

theorem mem_child_chars {st : trie_state} {p : List Char} {c : Char} :
    c ∈ child_chars st p ↔ p ++ [c] ∈ st.nodes := by
  unfold child_chars
  rw [List.mem_filterMap]
  constructor
  · rintro ⟨q, hq, hval⟩
    by_cases hcond : q ≠ [] ∧ q.dropLast = p
    · rw [if_pos hcond] at hval
      have hq2 : q = p ++ [c] := by
        have := List.dropLast_append_getLast? c hval
        rw [hcond.2] at this
        exact this.symm
      rwa [hq2] at hq
    · rw [if_neg hcond] at hval
      exact Option.noConfusion hval
  · intro hmem
    refine ⟨p ++ [c], hmem, ?_⟩
    rw [if_pos ⟨by simp, by simp⟩]
    simp

theorem child_chars_nodup {st : trie_state} (hnd : st.nodes.Nodup) (p : List Char) :
    (child_chars st p).Nodup := by
  unfold child_chars
  apply List.Nodup.filterMap
  · intro q q' c hc hc'
    by_cases h1 : q ≠ [] ∧ q.dropLast = p
    · rw [if_pos h1] at hc
      by_cases h2 : q' ≠ [] ∧ q'.dropLast = p
      · rw [if_pos h2] at hc'
        have e1 : q = p ++ [c] := by
          have := List.dropLast_append_getLast? c (by simpa using hc)
          rw [h1.2] at this
          exact this.symm
        have e2 : q' = p ++ [c] := by
          have := List.dropLast_append_getLast? c (by simpa using hc')
          rw [h2.2] at this
          exact this.symm
        rw [e1, e2]
      · rw [if_neg h2] at hc'
        exact absurd hc' (by simp)
    · rw [if_neg h1] at hc
      exact absurd hc (by simp)
  · exact hnd

theorem mem_get_transitions {st : trie_state} {p : List Char} {c : Char} :
    c ∈ get_transitions_fixed st p ↔ p ++ [c] ∈ st.nodes := by
  unfold get_transitions_fixed
  rw [(sort_by_perm _ (child_chars st p)).mem_iff]
  exact mem_child_chars

theorem get_transitions_nodup {st : trie_state} (hnd : st.nodes.Nodup) (p : List Char) :
    (get_transitions_fixed st p).Nodup := by
  unfold get_transitions_fixed
  exact (sort_by_perm _ (child_chars st p)).nodup_iff.mpr (child_chars_nodup hnd p)

theorem mem_get_states {st : trie_state} {p q : List Char} :
    q ∈ get_states_fixed st p ↔ (∃ c, q = p ++ [c]) ∧ q ∈ st.nodes := by
  unfold get_states_fixed
  rw [List.mem_map]
  constructor
  · rintro ⟨c, hc, rfl⟩
    exact ⟨⟨c, rfl⟩, mem_get_transitions.mp hc⟩
  · rintro ⟨⟨c, rfl⟩, hmem⟩
    exact ⟨c, mem_get_transitions.mpr hmem, rfl⟩

theorem get_states_nodup {st : trie_state} (hnd : st.nodes.Nodup) (p : List Char) :
    (get_states_fixed st p).Nodup := by
  unfold get_states_fixed
  apply List.Nodup.map
  · intro a b hab
    exact (append_singleton_inj hab).2
  · exact get_transitions_nodup hnd p

theorem get_states_length {st : trie_state} {p q : List Char}
    (h : q ∈ get_states_fixed st p) : q.length = p.length + 1 := by
  obtain ⟨⟨c, rfl⟩, _⟩ := mem_get_states.mp h
  simp

theorem get_transitions_nodes_congr {st st' : trie_state} (h : st'.nodes = st.nodes)
    (p : List Char) : get_transitions_fixed st' p = get_transitions_fixed st p := by
  unfold get_transitions_fixed child_chars
  rw [h]

theorem next_state_some_elim {st : trie_state} {p : List Char} {c : Char} {r : List Char}
    (h : next_state st p c = some r) :
    (p ++ [c] ∈ st.nodes ∧ r = p ++ [c]) ∨ (p ++ [c] ∉ st.nodes ∧ p = [] ∧ r = []) := by
  unfold next_state at h
  by_cases h1 : p ++ [c] ∈ st.nodes
  · rw [if_pos h1] at h
    exact Or.inl ⟨h1, (Option.some.inj h).symm⟩
  · rw [if_neg h1] at h
    by_cases h2 : p = []
    · rw [if_pos h2] at h
      exact Or.inr ⟨h1, h2, (Option.some.inj h).symm⟩
    · rw [if_neg h2] at h
      exact Option.noConfusion h

theorem next_state_none_elim {st : trie_state} {p : List Char} {c : Char}
    (h : next_state st p c = none) : p ++ [c] ∉ st.nodes ∧ p ≠ [] := by
  unfold next_state at h
  by_cases h1 : p ++ [c] ∈ st.nodes
  · rw [if_pos h1] at h
    exact Option.noConfusion h
  · rw [if_neg h1] at h
    by_cases h2 : p = []
    · rw [if_pos h2] at h
      exact Option.noConfusion h
    · exact ⟨h1, h2⟩

theorem next_state_child {st : trie_state} {p : List Char} {c : Char}
    (h : p ++ [c] ∈ st.nodes) : next_state st p c = some (p ++ [c]) := by
  unfold next_state
  rw [if_pos h]

/-- Correctness of the failure-chain walk: starting from a trace state t
that is a proper suffix of cur, with no longer proper suffix of cur
carrying the transition, and with all strictly shorter states already
resolved, the walk leaves the automaton untouched (substrings are
allowed) and returns the longest proper path-suffix of cur ++ [c]. -/
theorem resolve_failure_spec :
    ∀ (fuel : Nat) (st : trie_state) (t : List Char) (c : Char) (cur : List Char)
      (st₂ : trie_state) (nf : List Char),
      st.cfg.allow_substrings = true →
      [] ∈ st.nodes → nodes_closed st.nodes →
      cur ∈ st.nodes → cur ≠ [] →
      (∀ y, y ∈ st.nodes → y ≠ [] → y.length < cur.length →
        st.fail_of y = some (lps st.nodes y)) →
      t ∈ st.nodes → t <:+ cur → t ≠ cur →
      (∀ s, s ∈ st.nodes → s <:+ cur → s ≠ cur → t.length < s.length →
        s ++ [c] ∉ st.nodes) →
      resolve_failure fuel st (some t) c = some (st₂, nf) →
      st₂ = st ∧ nf = lps st.nodes (cur ++ [c]) := by
  intro fuel
  induction fuel with
  | zero =>
    intro st t c cur st₂ nf _ _ _ _ _ _ _ _ _ _ h
    exact absurd h (by simp [resolve_failure])
  | succ f ih =>
    intro st t c cur st₂ nf hcfg hroot hcl hcur hcurne hdone htN hts htne hupper hres
    unfold resolve_failure at hres
    cases hnx : next_state st t c with
    | none =>
      rw [hnx] at hres
      obtain ⟨hnotch, htn0⟩ := next_state_none_elim hnx
      have hlt : t.length < cur.length := strict_suffix_length_lt hts htne
      have hft : st.fail_of t = some (lps st.nodes t) := hdone t htN htn0 hlt
      rw [hft] at hres
      obtain ⟨l1, l2, l3, l4⟩ := lps_spec st.nodes hroot htn0
      have hts' : lps st.nodes t <:+ cur := l2.trans hts
      have hlt' : (lps st.nodes t).length < t.length := strict_suffix_length_lt l2 l3
      have htne' : lps st.nodes t ≠ cur := suffix_ne_of_length_lt (by omega)
      refine ih st (lps st.nodes t) c cur st₂ nf hcfg hroot hcl hcur hcurne hdone l1
        hts' htne' ?_ hres
      intro s hsN hscur hsne hlen
      rcases Nat.lt_or_ge t.length s.length with hgt | hge
      · exact hupper s hsN hscur hsne hgt
      · rcases Nat.eq_or_lt_of_le hge with heq2 | hlt2
        · have hst : s = t := by
            have hsub : s <:+ t := List.suffix_of_suffix_length_le hscur hts (by omega)
            exact hsub.eq_of_length (by omega)
          rw [hst]
          exact hnotch
        · have hsub : s <:+ t := List.suffix_of_suffix_length_le hscur hts (by omega)
          have hsne2 : s ≠ t := suffix_ne_of_length_lt (by omega)
          exact absurd (l4 s hsub hsne2 hsN) (by omega)
    | some nf₀ =>
      rw [hnx] at hres
      dsimp only at hres
      rw [if_neg (by rw [hcfg]; rintro ⟨h0, _⟩; exact Bool.noConfusion h0)] at hres
      have hpair : st = st₂ ∧ nf₀ = nf := by
        have := Option.some.inj hres
        exact ⟨congrArg Prod.fst this, congrArg Prod.snd this⟩
      obtain ⟨hst2, hnf⟩ := hpair
      refine ⟨hst2.symm, ?_⟩
      rw [← hnf]
      rcases next_state_some_elim hnx with ⟨hchild, rfl⟩ | ⟨hnochild, rfl, rfl⟩
      · symm
        apply lps_eq st.nodes hroot (by simp) hchild (suffix_append_single c hts)
        · intro h0
          exact htne (append_singleton_inj h0).1
        · intro s hsuf hne hmem
          by_cases hs0 : s = []
          · subst hs0; simp
          · obtain ⟨s', rfl, hs'w⟩ := suffix_snoc_decomp hsuf hs0
            have hs'N : s' ∈ st.nodes := hcl s' c hmem
            have hs'ne : s' ≠ cur := by
              intro h0; subst h0; exact hne rfl
            rcases Nat.lt_or_ge t.length s'.length with hgt | hge
            · exact absurd hmem (hupper s' hs'N hs'w hs'ne hgt)
            · simp
              omega
      · symm
        apply lps_eq st.nodes hroot (by simp) hroot List.nil_suffix (by simp)
        intro s hsuf hne hmem
        by_cases hs0 : s = []
        · subst hs0; simp
        · exfalso
          obtain ⟨s', rfl, hs'w⟩ := suffix_snoc_decomp hsuf hs0
          have hs'N : s' ∈ st.nodes := hcl s' c hmem
          have hs'ne : s' ≠ cur := by
            intro h0; subst h0; exact hne rfl
          by_cases hs'0 : s' = []
          · subst hs'0; exact hnochild (by simpa using hmem)
          · refine hupper s' hs'N hs'w hs'ne ?_ hmem
            cases s' with
            | nil => exact absurd rfl hs'0
            | cons a b => simp

theorem upd_same {β : Type} (f : List Char → β) (k : List Char) (v : β) :
    upd f k v k = v := by simp [upd]

theorem upd_ne {β : Type} (f : List Char → β) (k : List Char) (v : β) {q : List Char}
    (h : q ≠ k) : upd f k v q = f q := by simp [upd, h]

/-- Effect of the per-state body of the failure BFS: exactly the targets
of cur acquire their failure links (the longest proper path-suffixes) and
inherit suffix emits; everything else is untouched and the children
accumulate in push order. -/
theorem process_transitions_spec :
    ∀ (cs : List Char) (st : trie_state) (acc : List (List Char)) (cur : List Char)
      (st' : trie_state) (children : List (List Char)),
      st.cfg.allow_substrings = true →
      [] ∈ st.nodes → nodes_closed st.nodes →
      cur ∈ st.nodes → cur ≠ [] →
      (∀ y, y ∈ st.nodes → y ≠ [] → y.length < cur.length →
        st.fail_of y = some (lps st.nodes y)) →
      st.fail_of cur = some (lps st.nodes cur) →
      (∀ c ∈ cs, cur ++ [c] ∈ st.nodes) → cs.Nodup →
      emits_are_suffixes st →
      process_transitions st cur cs acc = some (st', children) →
      st'.nodes = st.nodes ∧ st'.cfg = st.cfg ∧ st'.postprocessed = st.postprocessed ∧
      children = acc ++ cs.map (fun c => cur ++ [c]) ∧
      (∀ q, (∀ c ∈ cs, q ≠ cur ++ [c]) →
        st'.fail_of q = st.fail_of q ∧ st'.emits_of q = st.emits_of q) ∧
      (∀ c ∈ cs, st'.fail_of (cur ++ [c]) = some (lps st.nodes (cur ++ [c]))) ∧
      emits_are_suffixes st' := by
  intro cs
  induction cs with
  | nil =>
    intro st acc cur st' children _ _ _ _ _ _ _ _ _ hes hp
    obtain ⟨h1, h2⟩ : st = st' ∧ acc = children := by
      have := Option.some.inj hp
      exact ⟨congrArg Prod.fst this, congrArg Prod.snd this⟩
    subst h1
    subst h2
    refine ⟨rfl, rfl, rfl, by simp, fun q _ => ⟨rfl, rfl⟩, by simp, hes⟩
  | cons c cs' ih =>
    intro st acc cur st' children hcfg hroot hcl hcur hcurne hdone hfcur hcs hnd hes hp
    have hchild : cur ++ [c] ∈ st.nodes := hcs c (by simp)
    unfold process_transitions at hp
    rw [next_state_child hchild] at hp
    dsimp only at hp
    cases hr : resolve_failure (st.nodes.length + 1) st (st.fail_of cur) c with
    | none => rw [hr] at hp; exact absurd hp (by simp)
    | some pr =>
      obtain ⟨st₁, nf⟩ := pr
      rw [hr] at hp
      rw [hfcur] at hr
      obtain ⟨l1, l2, l3, l4⟩ := lps_spec st.nodes hroot hcurne
      obtain ⟨hst1, hnf⟩ := resolve_failure_spec (st.nodes.length + 1) st
        (lps st.nodes cur) c cur st₁ nf hcfg hroot hcl hcur hcurne hdone l1 l2 l3
        (fun s hsN hssuf hsne hlen => absurd (l4 s hssuf hsne hsN) (by omega)) hr
      have hst1' : st = st₁ := hst1.symm
      subst hst1'
      subst hnf
      have htlen : (cur ++ [c]).length = cur.length + 1 := by simp
      have htne2 : cur ++ [c] ≠ [] := by simp
      obtain ⟨tl1, tl2, tl3, tl4⟩ := lps_spec st.nodes hroot htne2
      have hn2 : (apply_failure_update st (cur ++ [c]) (lps st.nodes (cur ++ [c]))).nodes =
          st.nodes := rfl
      have hc2 : (apply_failure_update st (cur ++ [c]) (lps st.nodes (cur ++ [c]))).cfg =
          st.cfg := rfl
      have hfl2 : (apply_failure_update st (cur ++ [c]) (lps st.nodes (cur ++ [c]))).fail_of =
          upd st.fail_of (cur ++ [c]) (some (lps st.nodes (cur ++ [c]))) := rfl
      have hem2 : (apply_failure_update st (cur ++ [c]) (lps st.nodes (cur ++ [c]))).emits_of =
          upd st.emits_of (cur ++ [c])
            (st.emits_of (cur ++ [c]) ++ st.emits_of (lps st.nodes (cur ++ [c]))) := rfl
      have hdone₂ : ∀ y, y ∈ st.nodes → y ≠ [] → y.length < cur.length →
          (apply_failure_update st (cur ++ [c]) (lps st.nodes (cur ++ [c]))).fail_of y =
            some (lps st.nodes y) := by
        intro y hy hyne hylen
        rw [hfl2, upd_ne _ _ _ (by intro h0; rw [h0] at hylen; simp at hylen)]
        exact hdone y hy hyne hylen
      have hfcur₂ : (apply_failure_update st (cur ++ [c]) (lps st.nodes (cur ++ [c]))).fail_of
          cur = some (lps st.nodes cur) := by
        rw [hfl2, upd_ne _ _ _ (by intro h0; have := congrArg List.length h0; simp at this)]
        exact hfcur
      have hes₂ : emits_are_suffixes
          (apply_failure_update st (cur ++ [c]) (lps st.nodes (cur ++ [c]))) := by
        intro p k i hmem
        rw [hem2] at hmem
        by_cases hpt : p = cur ++ [c]
        · subst hpt
          rw [upd_same] at hmem
          rcases List.mem_append.mp hmem with h5 | h5
          · exact hes _ k i h5
          · obtain ⟨g1, g2⟩ := hes _ k i h5
            exact ⟨g1.trans tl2, g2⟩
        · rw [upd_ne _ _ _ hpt] at hmem
          exact hes p k i hmem
      obtain ⟨g1, g2, g3, g4, g5, g6, g7⟩ := ih
        (apply_failure_update st (cur ++ [c]) (lps st.nodes (cur ++ [c])))
        (acc ++ [cur ++ [c]]) cur st' children
        (by rw [hc2]; exact hcfg) (by rw [hn2]; exact hroot) (by rw [hn2]; exact hcl)
        (by rw [hn2]; exact hcur) hcurne (by rw [hn2]; exact hdone₂) hfcur₂
        (by intro c' hc'; rw [hn2]; exact hcs c' (by simp [hc'])) (List.Nodup.of_cons hnd)
        hes₂ hp
      rw [hn2] at g1 g6
      rw [hc2] at g2
      refine ⟨g1, g2, g3, by rw [g4]; simp, ?_, ?_, g7⟩
      · intro q hq
        have hq1 : q ≠ cur ++ [c] := hq c (by simp)
        obtain ⟨u1, u2⟩ := g5 q (fun c' hc' => hq c' (by simp [hc']))
        constructor
        · rw [u1, hfl2, upd_ne _ _ _ hq1]
        · rw [u2, hem2, upd_ne _ _ _ hq1]
      · intro c'' hc''
        rcases List.mem_cons.mp hc'' with rfl | hmem2
        · obtain ⟨u1, _⟩ := g5 (cur ++ [c'']) (by
            intro c' hc' h0
            have := (append_singleton_inj h0).2
            subst this
            exact (List.nodup_cons.mp hnd).1 hc')
          rw [u1, hfl2, upd_same]
        · exact g6 c'' hmem2

theorem strict_prefix_length_lt {p y : List Char}
    (h : p <+: y) (hne : p ≠ y) : p.length < y.length := by
  rcases Nat.lt_or_ge p.length y.length with hlt | hge
  · exact hlt
  · exact absurd (h.eq_of_length (le_antisymm h.length_le hge)) hne

theorem prefix_eq_of_length {p₁ p₂ y : List Char}
    (h₁ : p₁ <+: y) (h₂ : p₂ <+: y) (hl : p₁.length = p₂.length) : p₁ = p₂ :=
  (List.prefix_of_prefix_length_le h₁ h₂ (by omega)).eq_of_length hl

theorem prefix_mem_of_closed {N : List (List Char)} (hcl : nodes_closed N) :
    ∀ (y : List Char), y ∈ N → ∀ p, p <+: y → p ∈ N := by
  intro y
  induction y using List.reverseRecOn with
  | nil =>
    intro hy p hp
    rw [List.prefix_nil.mp hp]
    exact hy
  | append_singleton ys c ihy =>
    intro hy p hp
    by_cases hlen : p.length = (ys ++ [c]).length
    · rw [hp.eq_of_length hlen]
      exact hy
    · have hple : p.length ≤ ys.length := by
        have := hp.length_le
        simp at this hlen
        omega
      have hpys : p <+: ys :=
        List.prefix_of_prefix_length_le hp (by exact ⟨[c], rfl⟩) (by simpa using hple)
      exact ihy (hcl ys c hy) p hpys

theorem prefix_head_extension {cur y : List Char}
    (h : cur <+: y) (hne : cur ≠ y) :
    ∃ c, cur ++ [c] <+: y := by
  obtain ⟨z, rfl⟩ := h
  cases z with
  | nil => exact absurd (by simp) hne
  | cons c z' => exact ⟨c, ⟨z', by simp⟩⟩

/-- BFS invariant of construct_failure_states_fixed: processing the queue
resolves every non-root state to its longest proper path-suffix while
emits stay suffixes of their states. -/
theorem construct_failure_loop_spec :
    ∀ (fuel : Nat) (st : trie_state) (q : List (List Char)) (st' : trie_state),
      st.cfg.allow_substrings = true →
      [] ∈ st.nodes → st.nodes.Nodup → nodes_closed st.nodes →
      (∀ x ∈ q, x ∈ st.nodes ∧ x ≠ []) →
      q.Nodup →
      q.Pairwise (fun a b => a.length ≤ b.length) →
      (∀ a ∈ q, ∀ b ∈ q, a.length ≤ b.length + 1) →
      (∀ x ∈ q, st.fail_of x ≠ none) →
      (∀ y ∈ st.nodes, y ≠ [] →
        ((st.fail_of y ≠ none) ↔ ¬∃ x ∈ q, x ≠ y ∧ x <+: y)) →
      (∀ y ∈ st.nodes, y ≠ [] → st.fail_of y ≠ none →
        st.fail_of y = some (lps st.nodes y)) →
      emits_are_suffixes st →
      construct_failure_loop_fixed fuel st q = some st' →
      st'.nodes = st.nodes ∧ st'.cfg = st.cfg ∧ st'.postprocessed = st.postprocessed ∧
      (∀ y ∈ st.nodes, y ≠ [] → st'.fail_of y = some (lps st.nodes y)) ∧
      emits_are_suffixes st' := by
  intro fuel
  induction fuel with
  | zero =>
    intro st q st' _ _ _ _ _ _ _ _ _ hv hvi hes hp
    cases q with
    | nil =>
      have hst : st = st' := Option.some.inj hp
      subst hst
      refine ⟨rfl, rfl, rfl, ?_, hes⟩
      intro y hy hyne
      refine hvi y hy hyne ((hv y hy hyne).mpr ?_)
      rintro ⟨x, hx, _⟩
      cases hx
    | cons a as => exact absurd hp (by simp [construct_failure_loop_fixed])
  | succ f ih =>
    intro st q st' hcfg hroot hnd hcl hq hqnd hqpw hqspan hqass hv hvi hes hp
    cases q with
    | nil =>
      have hst : st = st' := Option.some.inj hp
      subst hst
      refine ⟨rfl, rfl, rfl, ?_, hes⟩
      intro y hy hyne
      refine hvi y hy hyne ((hv y hy hyne).mpr ?_)
      rintro ⟨x, hx, _⟩
      cases hx
    | cons cur rest =>
      unfold construct_failure_loop_fixed at hp
      cases hpt : process_transitions st cur (get_transitions_fixed st cur) [] with
      | none => rw [hpt] at hp; exact absurd hp (by simp)
      | some pr =>
        obtain ⟨st₁, children⟩ := pr
        rw [hpt] at hp
        obtain ⟨hcurN, hcurne⟩ := hq cur (by simp)
        have hqlen_cur : ∀ x ∈ rest, cur.length ≤ x.length := by
          intro x hx
          exact (List.pairwise_cons.mp hqpw).1 x hx
        have hdone_below : ∀ y, y ∈ st.nodes → y ≠ [] → y.length < cur.length →
            st.fail_of y = some (lps st.nodes y) := by
          intro y hy hyne hylen
          refine hvi y hy hyne ((hv y hy hyne).mpr ?_)
          rintro ⟨x, hx, hxne, hxpre⟩
          have hx1 : cur.length ≤ x.length := by
            rcases List.mem_cons.mp hx with rfl | hx2
            · exact le_rfl
            · exact hqlen_cur x hx2
          have := strict_prefix_length_lt hxpre hxne
          omega
        have hfcur : st.fail_of cur = some (lps st.nodes cur) := by
          refine hvi cur hcurN hcurne ((hv cur hcurN hcurne).mpr ?_)
          rintro ⟨x, hx, hxne, hxpre⟩
          have hx1 : cur.length ≤ x.length := by
            rcases List.mem_cons.mp hx with rfl | hx2
            · exact le_rfl
            · exact hqlen_cur x hx2
          have := strict_prefix_length_lt hxpre hxne
          omega
        obtain ⟨g1, g2, g3, g4, g5, g6, g7⟩ := process_transitions_spec
          (get_transitions_fixed st cur) st [] cur st₁ children hcfg hroot hcl hcurN hcurne
          hdone_below hfcur (fun c hc => mem_get_transitions.mp hc)
          (get_transitions_nodup hnd cur) hes hpt
        rw [List.nil_append] at g4
        have hchild_mem : ∀ z, z ∈ children ↔ ((∃ c, z = cur ++ [c]) ∧ z ∈ st.nodes) := by
          intro z
          rw [g4, List.mem_map]
          constructor
          · rintro ⟨c, hc, rfl⟩
            exact ⟨⟨c, rfl⟩, mem_get_transitions.mp hc⟩
          · rintro ⟨⟨c, rfl⟩, hmem⟩
            exact ⟨c, mem_get_transitions.mpr hmem, rfl⟩
        have hchild_len : ∀ z ∈ children, z.length = cur.length + 1 := by
          intro z hz
          obtain ⟨⟨c, rfl⟩, _⟩ := (hchild_mem z).mp hz
          simp
        have hchild_fail : ∀ z ∈ children, st₁.fail_of z = some (lps st.nodes z) := by
          intro z hz
          obtain ⟨⟨c, rfl⟩, hmem⟩ := (hchild_mem z).mp hz
          exact g6 c (mem_get_transitions.mpr hmem)
        have hrest_not_child : ∀ x ∈ rest, x ∉ children := by
          intro x hx hxc
          obtain ⟨⟨c, hxeq⟩, hmem⟩ := (hchild_mem _).mp hxc
          have hass := hqass x (by simp [hx])
          have hnone : st.fail_of x = none := by
            by_contra h0
            have h1 := (hv x hmem (by rw [hxeq]; simp)).mp h0
            refine h1 ⟨cur, by simp, ?_, ?_⟩
            · intro h2
              rw [hxeq] at h2
              have := congrArg List.length h2
              simp at this
            · rw [hxeq]
              exact ⟨[c], rfl⟩
          exact hass hnone
        have hrest_untouched : ∀ x ∈ rest, st₁.fail_of x = st.fail_of x ∧
            st₁.emits_of x = st.emits_of x := by
          intro x hx
          refine g5 x ?_
          intro c hc h0
          apply hrest_not_child x hx
          rw [hchild_mem]
          exact ⟨⟨c, h0⟩, by
            rw [h0]
            exact mem_get_transitions.mp hc⟩
        -- invariant for the next iteration
        have hq' : ∀ x ∈ rest ++ children, x ∈ st₁.nodes ∧ x ≠ [] := by
          intro x hx
          rw [g1]
          rcases List.mem_append.mp hx with hx1 | hx2
          · exact hq x (by simp [hx1])
          · obtain ⟨⟨c, rfl⟩, hmem⟩ := (hchild_mem x).mp hx2
            exact ⟨hmem, by simp⟩
        have hqnd' : (rest ++ children).Nodup := by
          rw [List.nodup_append]
          refine ⟨(List.nodup_cons.mp hqnd).2, ?_, ?_⟩
          · rw [g4]
            apply List.Nodup.map
            · intro a b hab
              exact (append_singleton_inj hab).2
            · exact get_transitions_nodup hnd cur
          · intro a ha hb
            exact hrest_not_child a ha hb
        have hqpw' : (rest ++ children).Pairwise (fun a b => a.length ≤ b.length) := by
          rw [List.pairwise_append]
          refine ⟨(List.pairwise_cons.mp hqpw).2, ?_, ?_⟩
          · apply List.Pairwise.imp (fun {a b} (h : a.length = cur.length + 1 ∧
              b.length = cur.length + 1) => by omega)
            rw [List.pairwise_iff_forall_sublist]
            intro a b hsub
            have ha := hchild_len a (hsub.subset (by simp))
            have hb := hchild_len b (hsub.subset (by simp))
            exact ⟨ha, hb⟩
          · intro a ha b hb
            have hb1 := hchild_len b hb
            have := hqspan a (by simp [ha]) cur (by simp)
            omega
        have hqspan' : ∀ a ∈ rest ++ children, ∀ b ∈ rest ++ children,
            a.length ≤ b.length + 1 := by
          intro a ha b hb
          rcases List.mem_append.mp ha with ha1 | ha2 <;>
            rcases List.mem_append.mp hb with hb1 | hb2
          · exact hqspan a (by simp [ha1]) b (by simp [hb1])
          · have := hqspan a (by simp [ha1]) cur (by simp)
            have := hchild_len b hb2
            omega
          · have := hchild_len a ha2
            have := hqlen_cur b hb1
            omega
          · have := hchild_len a ha2
            have := hchild_len b hb2
            omega
        have hqass' : ∀ x ∈ rest ++ children, st₁.fail_of x ≠ none := by
          intro x hx
          rcases List.mem_append.mp hx with hx1 | hx2
          · rw [(hrest_untouched x hx1).1]
            exact hqass x (by simp [hx1])
          · rw [hchild_fail x hx2]
            simp
        have hv' : ∀ y ∈ st₁.nodes, y ≠ [] →
            ((st₁.fail_of y ≠ none) ↔ ¬∃ x ∈ rest ++ children, x ≠ y ∧ x <+: y) := by
          intro y hy hyne
          rw [g1] at hy
          by_cases hyc : y ∈ children
          · rw [hchild_fail y hyc]
            have hylen := hchild_len y hyc
            constructor
            · intro _
              rintro ⟨x, hx, hxne, hxpre⟩
              rcases List.mem_append.mp hx with hx1 | hx2
              · have hx3 := hqlen_cur x hx1
                have hx4 := strict_prefix_length_lt hxpre hxne
                have hx5 : x.length = cur.length := by omega
                obtain ⟨⟨c, rfl⟩, _⟩ := (hchild_mem y).mp hyc
                have hx6 : x = cur :=
                  prefix_eq_of_length hxpre (by exact ⟨[c], rfl⟩) (by simpa using hx5)
                subst hx6
                exact (List.nodup_cons.mp hqnd).1 hx1
              · have hx3 := hchild_len x hx2
                have hx4 := strict_prefix_length_lt hxpre hxne
                omega
            · intro _
              simp
          · have hyu : st₁.fail_of y = st.fail_of y := by
              refine (g5 y ?_).1
              intro c hc h0
              apply hyc
              rw [hchild_mem]
              exact ⟨⟨c, h0⟩, by rw [h0]; exact mem_get_transitions.mp hc⟩
            rw [hyu, hv y hy hyne]
            constructor
            · intro hold
              rintro ⟨x, hx, hxne, hxpre⟩
              rcases List.mem_append.mp hx with hx1 | hx2
              · exact hold ⟨x, by simp [hx1], hxne, hxpre⟩
              · obtain ⟨⟨c, rfl⟩, _⟩ := (hchild_mem x).mp hx2
                refine hold ⟨cur, by simp, ?_, ?_⟩
                · intro h0
                  subst h0
                  have := strict_prefix_length_lt hxpre hxne
                  simp at this
                · exact (by exact ⟨[c], rfl⟩ : cur <+: cur ++ [c]).trans hxpre
            · intro hnew
              rintro ⟨x, hx, hxne, hxpre⟩
              rcases List.mem_cons.mp hx with rfl | hx2
              · obtain ⟨c, hcpre⟩ := prefix_head_extension hxpre hxne
                have hcmem : x ++ [c] ∈ st.nodes :=
                  prefix_mem_of_closed hcl y hy (x ++ [c]) hcpre
                have hcchild : x ++ [c] ∈ children :=
                  (hchild_mem _).mpr ⟨⟨c, rfl⟩, hcmem⟩
                refine hnew ⟨x ++ [c], by simp [hcchild], ?_, hcpre⟩
                intro h0
                rw [h0] at hcchild
                exact hyc hcchild
              · exact hnew ⟨x, by simp [hx2], hxne, hxpre⟩
        have hvi' : ∀ y ∈ st₁.nodes, y ≠ [] → st₁.fail_of y ≠ none →
            st₁.fail_of y = some (lps st₁.nodes y) := by
          intro y hy hyne hfy
          rw [g1] at hy
          by_cases hyc : y ∈ children
          · rw [hchild_fail y hyc]
            rw [show st₁.nodes = st.nodes from g1]
          · have hyu : st₁.fail_of y = st.fail_of y := by
              refine (g5 y ?_).1
              intro c hc h0
              apply hyc
              rw [hchild_mem]
              exact ⟨⟨c, h0⟩, by rw [h0]; exact mem_get_transitions.mp hc⟩
            rw [hyu] at hfy ⊢
            rw [show st₁.nodes = st.nodes from g1]
            exact hvi y hy hyne hfy
        obtain ⟨k1, k2, k3, k4, k5⟩ := ih st₁ (rest ++ children) st'
          (by rw [g2]; exact hcfg) (by rw [g1]; exact hroot) (by rw [g1]; exact hnd)
          (by rw [g1]; exact hcl) hq' hqnd' hqpw' hqspan' hqass' hv' hvi' g7 hp
        rw [g1] at k1
        rw [g2] at k2
        refine ⟨k1, k2, k3.trans g3, ?_, k5⟩
        intro y hy hyne
        have := k4 y (by rw [g1]; exact hy) hyne
        rw [show st₁.nodes = st.nodes from g1] at this
        exact this

theorem foldl_upd_eq {β : Type} (l : List (List Char)) (f : List Char → β) (v : β)
    (q : List Char) :
    (l.foldl (fun g p => upd g p v) f) q = if q ∈ l then v else f q := by
  induction l generalizing f with
  | nil => simp
  | cons a as ih =>
    rw [List.foldl_cons, ih]
    by_cases hqa : q = a
    · subst hqa
      by_cases hqs : q ∈ as <;> simp [hqs, upd_same]
    · by_cases hqs : q ∈ as <;> simp [hqs, hqa, upd_ne f a v hqa]

/-- Embedding of construct_failure_states_fixed as a whole: starting from an
uncompiled automaton with substrings allowed, every non-root state ends
with its failure link set to the longest proper path-suffix of its path,
while nodes, configuration, flag and the emit-suffix invariant are
preserved. -/
theorem construct_failure_states_spec
    {st st' : trie_state}
    (hcfg : st.cfg.allow_substrings = true)
    (hroot : [] ∈ st.nodes) (hnd : st.nodes.Nodup) (hcl : nodes_closed st.nodes)
    (hfail : ∀ p, st.fail_of p = none)
    (hes : emits_are_suffixes st)
    (hp : construct_failure_states_fixed st = some st') :
    st'.nodes = st.nodes ∧ st'.cfg = st.cfg ∧ st'.postprocessed = st.postprocessed ∧
    (∀ y ∈ st.nodes, y ≠ [] → st'.fail_of y = some (lps st.nodes y)) ∧
    emits_are_suffixes st' := by
  unfold construct_failure_states_fixed at hp
  dsimp only at hp
  have hd1 : ∀ x, x ∈ get_states_fixed st [] ↔ ((∃ c, x = [c]) ∧ x ∈ st.nodes) := by
    intro x
    rw [mem_get_states]
    simp
  have hf1 : ∀ q, ((get_states_fixed st []).foldl (fun f p => upd f p (some [])) st.fail_of) q =
      if q ∈ get_states_fixed st [] then some [] else none := by
    intro q
    rw [foldl_upd_eq, hfail]
  refine construct_failure_loop_spec st.nodes.length
    {st with fail_of := ((get_states_fixed st []).foldl
      (fun f p => upd f p (some [])) st.fail_of)}
    (get_states_fixed st []) st' hcfg hroot hnd hcl ?_
    (get_states_nodup hnd []) ?_ ?_ ?_ ?_ ?_ hes hp
  · intro x hx
    obtain ⟨⟨c, rfl⟩, hmem⟩ := (hd1 x).mp hx
    exact ⟨hmem, by simp⟩
  · rw [List.pairwise_iff_forall_sublist]
    intro a b hsub
    obtain ⟨⟨c, rfl⟩, _⟩ := (hd1 a).mp (hsub.subset (by simp))
    obtain ⟨⟨d, rfl⟩, _⟩ := (hd1 b).mp (hsub.subset (by simp))
    simp
  · intro a ha b hb
    obtain ⟨⟨c, rfl⟩, _⟩ := (hd1 a).mp ha
    obtain ⟨⟨d, rfl⟩, _⟩ := (hd1 b).mp hb
    simp
  · intro x hx
    show ((get_states_fixed st []).foldl (fun f p => upd f p (some [])) st.fail_of) x ≠ none
    rw [hf1 x, if_pos hx]
    simp
  · intro y hy hyne
    show ((get_states_fixed st []).foldl (fun f p => upd f p (some [])) st.fail_of) y ≠ none ↔
      ¬∃ x ∈ get_states_fixed st [], x ≠ y ∧ x <+: y
    rw [hf1 y]
    by_cases hyd : y ∈ get_states_fixed st []
    · rw [if_pos hyd]
      constructor
      · intro _
        rintro ⟨x, hx, hxne, hxpre⟩
        obtain ⟨⟨c, rfl⟩, _⟩ := (hd1 x).mp hx
        obtain ⟨⟨d, rfl⟩, _⟩ := (hd1 y).mp hyd
        have := strict_prefix_length_lt hxpre hxne
        simp at this
      · intro _
        simp
    · rw [if_neg hyd]
      constructor
      · intro h0
        exact absurd rfl h0
      · intro hno
        exfalso
        have hy2 : y ∈ st.nodes := hy
        cases y with
        | nil => exact hyne rfl
        | cons c0 t =>
          have hc0 : [c0] ∈ st.nodes :=
            prefix_mem_of_closed hcl (c0 :: t) hy2 [c0] ⟨t, rfl⟩
          have hc0d : [c0] ∈ get_states_fixed st [] := (hd1 [c0]).mpr ⟨⟨c0, rfl⟩, hc0⟩
          refine hno ⟨[c0], hc0d, ?_, ⟨t, rfl⟩⟩
          intro h1
          rw [h1] at hc0d
          exact hyd hc0d
  · intro y hy hyne hf
    replace hf : ((get_states_fixed st []).foldl (fun f p => upd f p (some [])) st.fail_of) y ≠
      none := hf
    show ((get_states_fixed st []).foldl (fun f p => upd f p (some [])) st.fail_of) y =
      some (lps st.nodes y)
    rw [hf1 y] at hf ⊢
    by_cases hyd : y ∈ get_states_fixed st []
    · rw [if_pos hyd]
      obtain ⟨⟨c, rfl⟩, _⟩ := (hd1 y).mp hyd
      rw [lps_singleton]
    · rw [if_neg hyd] at hf
      exact absurd rfl hf

theorem assign_indices_loop_preserves :
    ∀ (fuel : Nat) (st : trie_state) (q : List (List Char)) (i : Nat)
      (st₂ : trie_state) (i₂ : Nat),
      assign_indices_loop_fixed fuel st q i = some (st₂, i₂) →
      st₂.nodes = st.nodes ∧ st₂.cfg = st.cfg ∧ st₂.emits_of = st.emits_of ∧
        st₂.fail_of = st.fail_of ∧ st₂.postprocessed = st.postprocessed := by
  intro fuel
  induction fuel with
  | zero =>
    intro st q i st₂ i₂ hp
    cases q with
    | nil =>
      simp [assign_indices_loop_fixed] at hp
      rw [← hp.1]
      exact ⟨rfl, rfl, rfl, rfl, rfl⟩
    | cons a as => exact absurd hp (by simp [assign_indices_loop_fixed])
  | succ f ih =>
    intro st q i st₂ i₂ hp
    cases q with
    | nil =>
      simp [assign_indices_loop_fixed] at hp
      rw [← hp.1]
      exact ⟨rfl, rfl, rfl, rfl, rfl⟩
    | cons p rest =>
      unfold assign_indices_loop_fixed at hp
      dsimp only at hp
      obtain ⟨k1, k2, k3, k4, k5⟩ := ih _ _ _ _ _ hp
      exact ⟨k1.trans rfl, k2.trans rfl, k3.trans rfl, k4.trans rfl, k5.trans rfl⟩

theorem assign_indices_preserves {st st₁ : trie_state}
    (hp : assign_indices_fixed st = some st₁) :
    st₁.nodes = st.nodes ∧ st₁.cfg = st.cfg ∧ st₁.emits_of = st.emits_of ∧
      st₁.fail_of = st.fail_of ∧ st₁.postprocessed = st.postprocessed := by
  unfold assign_indices_fixed at hp
  cases hl : assign_indices_loop_fixed st.nodes.length st [[]] 0 with
  | none => rw [hl] at hp; simp at hp
  | some r =>
    obtain ⟨st₂, i₂⟩ := r
    rw [hl] at hp
    simp at hp
    obtain ⟨k1, k2, k3, k4, k5⟩ := assign_indices_loop_preserves _ _ _ _ _ _ hl
    rw [← hp]
    exact ⟨k1, k2, k3, k4, k5⟩

/-- Embedding of check_postprocess_fixed on an uncompiled automaton whose
configuration allows substrings: index assignment and the optional
state recording do not disturb the trie, prefix removal is skipped, and
failure construction resolves every non-root failure link to the longest
proper path-suffix. -/
theorem check_postprocess_allow_spec {st st' : trie_state}
    (hcfg : st.cfg.allow_substrings = true)
    (hroot : [] ∈ st.nodes) (hnd : st.nodes.Nodup) (hcl : nodes_closed st.nodes)
    (hfail : fail_is_none st) (hes : emits_are_suffixes st)
    (hpost : st.postprocessed = false)
    (hp : check_postprocess_fixed st = some st') :
    st'.nodes = st.nodes ∧ st'.cfg = st.cfg ∧
    (∀ y ∈ st.nodes, y ≠ [] → st'.fail_of y = some (lps st.nodes y)) ∧
    emits_are_suffixes st' := by
  unfold check_postprocess_fixed at hp
  split at hp
  · rename_i h0
    rw [hpost] at h0
    cases h0
  · cases hai : assign_indices_fixed st with
    | none => rw [hai] at hp; cases hp
    | some st₁ =>
      rw [hai] at hp
      dsimp only at hp
      obtain ⟨k1, k2, k3, k4, k5⟩ := assign_indices_preserves hai
      have hc1 : st₁.cfg.allow_substrings = true := by rw [k2]; exact hcfg
      rw [if_pos hc1] at hp
      dsimp only at hp
      cases hcf : construct_failure_states_fixed st₁ with
      | none => rw [hcf] at hp; cases hp
      | some st₃ =>
        rw [hcf] at hp
        obtain ⟨m1, m2, m3, m4, m5⟩ := construct_failure_states_spec hc1
          (by rw [k1]; exact hroot) (by rw [k1]; exact hnd) (by rw [k1]; exact hcl)
          (by intro p; rw [k4]; exact hfail p)
          (by unfold emits_are_suffixes; rw [k3]; exact hes) hcf
        dsimp only at hp
        have hfields : st'.nodes = st₃.nodes ∧ st'.cfg = st₃.cfg ∧
            st'.fail_of = st₃.fail_of ∧ st'.emits_of = st₃.emits_of := by
          by_cases hsf : st₃.cfg.store_states_in_bfs_order = true
          · rw [if_pos hsf] at hp
            rw [← Option.some.inj hp]
            exact ⟨rfl, rfl, rfl, rfl⟩
          · rw [if_neg hsf] at hp
            rw [← Option.some.inj hp]
            exact ⟨rfl, rfl, rfl, rfl⟩
        obtain ⟨f1, f2, f3, f4⟩ := hfields
        rw [k1] at m1
        refine ⟨f1.trans m1, f2.trans (m2.trans k2), ?_, ?_⟩
        · intro y hy hyne
          rw [f3]
          have := m4 y (by rw [k1]; exact hy) hyne
          rw [k1] at this
          exact this
        · unfold emits_are_suffixes
          rw [f4]
          exact m5

theorem get_state_spec :
    ∀ (fuel : Nat) (st : trie_state) (cur : List Char) (c : Char) (nxt : List Char),
      [] ∈ st.nodes →
      (∀ p ∈ st.nodes, p ≠ [] → st.fail_of p = some (lps st.nodes p)) →
      cur ∈ st.nodes →
      get_state fuel st cur c = some nxt →
      nxt ∈ st.nodes ∧ (nxt = [] ∨ ∃ t, t <:+ cur ∧ nxt = t ++ [c]) := by
  intro fuel
  induction fuel with
  | zero =>
    intro st cur c nxt _ _ _ hp
    exact absurd hp (by simp [get_state])
  | succ f ih =>
    intro st cur c nxt hroot hfr hcur hp
    unfold get_state at hp
    cases hns : next_state st cur c with
    | some r =>
      rw [hns] at hp
      have hr : r = nxt := Option.some.inj hp
      subst hr
      unfold next_state at hns
      by_cases hmem : cur ++ [c] ∈ st.nodes
      · rw [if_pos hmem] at hns
        have hr2 : cur ++ [c] = r := Option.some.inj hns
        rw [← hr2]
        exact ⟨hmem, Or.inr ⟨cur, List.suffix_refl cur, rfl⟩⟩
      · rw [if_neg hmem] at hns
        by_cases hcn : cur = []
        · rw [if_pos hcn] at hns
          have hr2 : ([] : List Char) = r := Option.some.inj hns
          rw [← hr2]
          exact ⟨hroot, Or.inl rfl⟩
        · rw [if_neg hcn] at hns
          cases hns
    | none =>
      rw [hns] at hp
      have hcne : cur ≠ [] := by
        intro h0
        subst h0
        unfold next_state at hns
        split at hns
        · cases hns
        · rw [if_pos rfl] at hns
          cases hns
      obtain ⟨hl1, hl2, _, _⟩ := lps_spec st.nodes hroot hcne
      rw [hfr cur hcur hcne] at hp
      obtain ⟨hn1, hn2⟩ := ih st (lps st.nodes cur) c nxt hroot hfr hl1 hp
      refine ⟨hn1, ?_⟩
      rcases hn2 with rfl | ⟨t, ht, rfl⟩
      · exact Or.inl rfl
      · exact Or.inr ⟨t, ht.trans hl2, rfl⟩

theorem suffix_take_slice {text k : List Char} {m : Nat}
    (hm : m ≤ text.length) (hk : k <:+ text.take m) :
    (text.drop (m - k.length)).take k.length = k := by
  obtain ⟨A, hA⟩ := hk
  have htklen : (text.take m).length = m := by
    rw [List.length_take]
    omega
  have hAlen : A.length = m - k.length := by
    have h1 := congrArg List.length hA
    rw [List.length_append, htklen] at h1
    omega
  have htext : text = A ++ k ++ text.drop m := by
    conv_lhs => rw [← List.take_append_drop m text, ← hA]
  rw [← hAlen, htext, List.append_assoc, List.drop_left, List.take_left]

/-- Invariant of the character walk of parse_text_fixed: starting from a state
that is a suffix of the consumed text with all failure links resolved,
every collected emit names a non-empty keyword that occurs in the text
exactly at the recorded interval. -/
theorem parse_loop_spec :
    ∀ (cs : List Char) (st : trie_state) (cur : List Char) (pos : Nat)
      (acc : List emit) (text : List Char) (res : List emit),
      st.cfg.case_insensitive = false →
      [] ∈ st.nodes →
      (∀ p ∈ st.nodes, p ≠ [] → st.fail_of p = some (lps st.nodes p)) →
      emits_are_suffixes st →
      text = text.take pos ++ cs →
      (text.take pos).length = pos →
      cur ∈ st.nodes →
      cur <:+ text.take pos →
      (∀ e ∈ acc, e.keyword ≠ [] ∧ e.keyword.length ≤ e.stop + 1 ∧
        e.start = e.stop + 1 - e.keyword.length ∧ e.stop < text.length ∧
        (text.drop e.start).take e.keyword.length = e.keyword) →
      parse_loop st cur cs pos acc = some res →
      ∀ e ∈ res, e.keyword ≠ [] ∧ e.keyword.length ≤ e.stop + 1 ∧
        e.start = e.stop + 1 - e.keyword.length ∧ e.stop < text.length ∧
        (text.drop e.start).take e.keyword.length = e.keyword := by
  intro cs
  induction cs with
  | nil =>
    intro st cur pos acc text res _ _ _ _ _ _ _ _ hacc hp
    have hres : acc = res := Option.some.inj hp
    rw [← hres]
    exact hacc
  | cons c cs' ih =>
    intro st cur pos acc text res hci hroot hfr hes htext hplen hcur hsuf hacc hp
    unfold parse_loop at hp
    dsimp only at hp
    have hc1 : (if st.cfg.case_insensitive = true then to_lower_char c else c) = c := by
      rw [hci]
      simp
    rw [hc1] at hp
    cases hgs : get_state (st.nodes.length + 1) st cur c with
    | none => rw [hgs] at hp; cases hp
    | some nxt =>
      rw [hgs] at hp
      obtain ⟨hn1, hn2⟩ := get_state_spec _ st cur c nxt hroot hfr hcur hgs
      have htlen : text.length = pos + 1 + cs'.length := by
        have h1 := congrArg List.length htext
        rw [List.length_append, hplen] at h1
        simp at h1
        omega
      have htk1 : text.take (pos + 1) = text.take pos ++ [c] := by
        conv_lhs => rw [htext]
        rw [List.take_append_eq_append_take, List.take_all_of_le (by omega), hplen]
        have h2 : pos + 1 - pos = 1 := by omega
        rw [h2]
        rfl
      have htext' : text = text.take (pos + 1) ++ cs' := by
        rw [htk1, List.append_assoc]
        exact htext
      have hplen' : (text.take (pos + 1)).length = pos + 1 := by
        rw [List.length_take]
        omega
      have hsuf' : nxt <:+ text.take (pos + 1) := by
        rcases hn2 with rfl | ⟨t, ht, rfl⟩
        · exact List.nil_suffix
        · rw [htk1]
          exact suffix_append_single c (ht.trans hsuf)
      have hacc' : ∀ e ∈ store_emits pos st nxt acc, e.keyword ≠ [] ∧
          e.keyword.length ≤ e.stop + 1 ∧
          e.start = e.stop + 1 - e.keyword.length ∧ e.stop < text.length ∧
          (text.drop e.start).take e.keyword.length = e.keyword := by
        intro e he
        unfold store_emits at he
        dsimp only at he
        by_cases hemp : st.emits_of nxt = []
        · rw [if_pos hemp] at he
          exact hacc e he
        · rw [if_neg hemp] at he
          rcases List.mem_append.mp he with he1 | he2
          · exact hacc e he1
          · obtain ⟨ki, hki, hke⟩ := List.mem_map.mp he2
            obtain ⟨hks, hkne⟩ := hes nxt ki.1 ki.2 (by
              rw [show (ki.1, ki.2) = ki from rfl]
              exact hki)
            have hktk : ki.1 <:+ text.take (pos + 1) := hks.trans hsuf'
            have hklen : ki.1.length ≤ pos + 1 := by
              have := hktk.length_le
              rw [hplen'] at this
              exact this
            rw [← hke]
            refine ⟨hkne, by simpa using hklen, by simp, by simp; omega, ?_⟩
            simpa using suffix_take_slice (by omega) hktk
      exact ih st nxt (pos + 1) (store_emits pos st nxt acc) text res hci hroot hfr hes
        htext' hplen' hn1 hsuf' hacc' hp

/-- C10 companion theorem over get_states_fixed and get_transitions_fixed
(the transition map accessors with the missing return statements
restored as evidently intended): the BFS index-assignment traversal of
the worked example visits each of the ten trie states exactly once. -/
theorem c10_bfs_traversal :
    (check_postprocess_fixed bfs_example_trie).map
        (fun st => (st.state_count, st.states_in_bfs_order)) =
      some (10, bfs_example_order) ∧
    bfs_example_order.Nodup ∧ bfs_example_order.Perm bfs_example_trie.nodes := by
  refine ⟨by decide, by decide, by decide⟩

theorem build_trie_emits_are_suffixes (kws : List (List Char)) :
    emits_are_suffixes (build_trie kws) := by
  intro p k i hmem
  obtain ⟨h1, h2, _⟩ := (build_trie_with_wf default_config kws).2.1 p k i hmem
  exact ⟨by rw [h1], h2⟩

/-- Companion over the repaired transition map (compare claim C10):
after compilation of an automaton built under the default configuration
(substrings allowed), the node set is unchanged, every depth-1 state's
failure link is the root, and every non-root state's failure link is the
state whose root path is the longest proper suffix of its own path that
is itself a path of the trie — the iterative fall-back construction of
construct_failure_states_fixed realises the declarative
longest-proper-suffix characterisation lps. -/
theorem fixed_failure_links (kws : List (List Char)) (st' : trie_state)
    (hp : check_postprocess_fixed (build_trie kws) = some st') :
    st'.nodes = (build_trie kws).nodes ∧
    (∀ c, [c] ∈ (build_trie kws).nodes → st'.fail_of [c] = some []) ∧
    (∀ p ∈ (build_trie kws).nodes, p ≠ [] →
      st'.fail_of p = some (lps (build_trie kws).nodes p)) := by
  obtain ⟨hw, hpre, hcfg, hpost, hfail⟩ := build_trie_with_wf default_config kws
  obtain ⟨m1, m2, m3, m4⟩ := check_postprocess_allow_spec (by rw [hcfg]; rfl)
    hw.1 hw.2.1 hw.2.2 hfail (build_trie_emits_are_suffixes kws) hpost hp
  refine ⟨m1, ?_, m3⟩
  intro c hc
  rw [m3 [c] hc (by simp), lps_singleton]

/-- fixed_failure_links evaluated on the worked example: the compiled
ushers automaton links each depth-1 state to the root and state she to
its longest proper path-suffix he. -/
theorem fixed_failure_links_example :
    ∃ st', check_postprocess_fixed (build_trie ushers_keywords) = some st' ∧
      st'.nodes = (build_trie ushers_keywords).nodes ∧
      st'.fail_of ['s'] = some [] ∧
      st'.fail_of ['s', 'h', 'e'] =
        some (lps (build_trie ushers_keywords).nodes ['s', 'h', 'e']) := by
  cases h : check_postprocess_fixed (build_trie ushers_keywords) with
  | none =>
    have hs : (check_postprocess_fixed (build_trie ushers_keywords)).isSome = true := by decide
    rw [h] at hs
    exact Bool.noConfusion hs
  | some st' =>
    obtain ⟨m1, m2, m3⟩ := fixed_failure_links ushers_keywords st' h
    exact ⟨st', rfl, m1, m2 's' (by decide),
      m3 ['s', 'h', 'e'] (by decide) (by decide)⟩

/-- Companion over the repaired transition map (compare claim C10):
under the default configuration, every emit returned by the repaired
scan names a non-empty keyword, its interval satisfies
start = stop + 1 - keyword length with stop a valid 0-based position of
the text (the position of the last matched character), and the slice of
the text starting at start of the keyword's length equals the keyword
field exactly (round-trip correctness of the offsets). -/
theorem fixed_emit_round_trip (kws : List (List Char)) (text : List Char)
    (st' : trie_state) (es : List emit)
    (hp : parse_text_fixed (build_trie kws) text = some (st', es)) :
    ∀ e ∈ es, e.keyword ≠ [] ∧ e.keyword.length ≤ e.stop + 1 ∧
      e.start = e.stop + 1 - e.keyword.length ∧ e.stop < text.length ∧
      (text.drop e.start).take e.keyword.length = e.keyword := by
  unfold parse_text_fixed at hp
  cases hcp : check_postprocess_fixed (build_trie kws) with
  | none => rw [hcp] at hp; cases hp
  | some st₁ =>
    rw [hcp] at hp
    obtain ⟨hw, hpre, hcfg, hpost, hfail⟩ := build_trie_with_wf default_config kws
    obtain ⟨m1, m2, m3, m4⟩ := check_postprocess_allow_spec (by rw [hcfg]; rfl)
      hw.1 hw.2.1 hw.2.2 hfail (build_trie_emits_are_suffixes kws) hpost hcp
    unfold parse_rest at hp
    obtain ⟨es0, hpe, hpair⟩ := Option.map_eq_some'.mp hp
    have hes0 : es0 = es := congrArg Prod.snd hpair
    unfold parse_emits at hpe
    cases hpl : parse_loop st₁ [] text 0 [] with
    | none => rw [hpl] at hpe; cases hpe
    | some collected =>
      rw [hpl] at hpe
      dsimp only at hpe
      have hcfg1 : st₁.cfg = default_config := by rw [m2, hcfg]
      have hww : st₁.cfg.only_whole_words = false := by rw [hcfg1]; rfl
      have hov : st₁.cfg.allow_overlaps = true := by rw [hcfg1]; rfl
      rw [hww, hov] at hpe
      simp at hpe
      have hcoll : collected = es := hpe.trans hes0
      rw [hcoll] at hpl
      have hfr : ∀ p ∈ st₁.nodes, p ≠ [] → st₁.fail_of p = some (lps st₁.nodes p) := by
        intro p hp2 hpne
        rw [m1] at hp2 ⊢
        exact m3 p hp2 hpne
      have hci : st₁.cfg.case_insensitive = false := by rw [hcfg1]; rfl
      have hroot₁ : [] ∈ st₁.nodes := by rw [m1]; exact hw.1
      exact parse_loop_spec text st₁ [] 0 [] text es hci hroot₁ hfr m4
        (by simp) (by simp) hroot₁ (by simp) (by intro e he; cases he) hpl

/-- fixed_emit_round_trip evaluated on the worked example. -/
theorem fixed_emit_round_trip_example :
    ∃ st es, parse_text_fixed (build_trie ushers_keywords) ushers_text = some (st, es) ∧
      ∀ e ∈ es, e.keyword ≠ [] ∧ e.keyword.length ≤ e.stop + 1 ∧
        e.start = e.stop + 1 - e.keyword.length ∧ e.stop < ushers_text.length ∧
        (ushers_text.drop e.start).take e.keyword.length = e.keyword := by
  cases h : parse_text_fixed (build_trie ushers_keywords) ushers_text with
  | none =>
    have hs : (parse_text_fixed (build_trie ushers_keywords) ushers_text).isSome = true := by
      decide
    rw [h] at hs
    exact Bool.noConfusion hs
  | some p =>
    obtain ⟨st, es⟩ := p
    exact ⟨st, es, rfl, fixed_emit_round_trip ushers_keywords ushers_text st es h⟩

/-- C1: the claimed offset round-trip is not a property of the source
program: for every keyword set and every text, scan/parse_text must
first compile the automaton lazily, and the index-assignment BFS of
check_postprocess enumerates children through transition_map::get_states,
which falls off the end of a non-void function, so every scan reaches
undefined behaviour and never returns an emit collection whose offsets
could be checked (the companion fixed_emit_round_trip shows the
round-trip holds once the missing returns are restored). -/
theorem c1_scan_reaches_ub (kws : List (List Char)) (text : List Char) :
    parse_text (build_trie kws) text = none :=
  parse_text_ub _ _ (build_trie_with_wf default_config kws).2.2.2.1

/-- C2: the failure-link property is not establishable on the source
program: compiling any automaton built under the default configuration
reaches undefined behaviour before a single failure link is set, because
assign_indices and construct_failure_states enumerate states through the
return-less transition_map accessors, so check_postprocess never
completes (the companion fixed_failure_links shows the declarative
longest-proper-suffix characterisation holds once the missing returns
are restored). -/
theorem c2_compile_reaches_ub (kws : List (List Char)) :
    check_postprocess (build_trie kws) = none :=
  check_postprocess_ub (build_trie_with_wf default_config kws).2.2.2.1

/-- C5: the claimed ushers emits are not produced by the source program:
scanning ushers on the automaton for he, she, hers, his first compiles
lazily, and compilation reaches the undefined behaviour of the
return-less transition_map accessors, so the scan yields no emits at all
— in particular neither the claimed he with end 4 nor hers at [1,4]
(which the repaired program also refutes, see the companion
fixed_ushers_scan_deviation). -/
theorem c5_ushers_scan_reaches_ub :
    parse_text (build_trie ushers_keywords) ushers_text = none :=
  parse_text_ub _ _ (build_trie_with_wf default_config ushers_keywords).2.2.2.1

/-- C8: scan idempotence is not establishable on the source program:
under every configuration and keyword sequence the first scan must
compile lazily, compilation reaches the undefined behaviour of the
return-less transition_map accessors, and so no first scan ever returns
a result against which a second scan could be compared (the companion
fixed_scan_idempotent shows idempotence holds once the missing returns
are restored). -/
theorem c8_first_scan_reaches_ub (c : trie_config) (kws : List (List Char))
    (text : List Char) :
    parse_text (build_trie_with c kws) text = none :=
  parse_text_ub _ _ (build_trie_with_wf c kws).2.2.2.1

end aho_corasick
